import Mathlib

/-!
Verification development for the md-editor repository (an Electron markdown
editor with a task-board mode).  The JavaScript sources are shallowly embedded
as executable Lean definitions: strings are modelled as `List Char`, JavaScript
values produced by `JSON.parse` as the inductive `Json`, and the stateful
tab-manager / auto-save modules as explicit state records with transition
functions.  Each definition carries a comment pointing to the source function
it embeds.  Claim theorems are collected at the end of the file.
-/

set_option maxHeartbeats 4000000

namespace MdEditor

/-! ## Character classes used by the JavaScript code

JavaScript regex classes are modelled over their ASCII range; the repository's
inputs (markdown text, JSON documents, file paths) are ASCII-oriented and none
of the claims exercises the non-ASCII corners of `\s` / `\w` / `toLowerCase`.
-/

/-- JavaScript whitespace (`\s`, `String.prototype.trim`), ASCII subset. -/
def isJsWs (c : Char) : Bool :=
  c = ' ' || c = '\t' || c = '\n' || c = '\r' || c = '\x0b' || c = '\x0c'

/-- JSON whitespace accepted by `JSON.parse` (exactly space, tab, LF, CR). -/
def isJsonWs (c : Char) : Bool :=
  c = ' ' || c = '\t' || c = '\n' || c = '\r'

/-- Decimal digit (`\d` and the JSON number grammar). -/
def isDigitCh (c : Char) : Bool :=
  48 ≤ c.toNat && c.toNat ≤ 57

/-- JavaScript word character `\w` = `[A-Za-z0-9_]`. -/
def isWordCh (c : Char) : Bool :=
  ('a' ≤ c && c ≤ 'z') || ('A' ≤ c && c ≤ 'Z') || isDigitCh c || c = '_'

/-- Test whether `p` is a prefix of `s` (JS `String.prototype.startsWith`). -/
def startsWithCh : List Char → List Char → Bool
  | [], _ => true
  | _, [] => false
  | p :: ps, c :: cs => p = c && startsWithCh ps cs

/-- JS `String.prototype.trim` (both ends). -/
def trimChars (s : List Char) : List Char :=
  ((s.dropWhile isJsWs).reverse.dropWhile isJsWs).reverse

/-- JS `String.prototype.trimEnd`. -/
def trimEndChars (s : List Char) : List Char :=
  (s.reverse.dropWhile isJsWs).reverse

/-- JS `str.split(d)` for a one-character separator `d`. -/
def splitOnCh (d : Char) : List Char → List (List Char)
  | [] => [[]]
  | c :: rest =>
    if c = d then [] :: splitOnCh d rest
    else
      match splitOnCh d rest with
      | l :: ls => (c :: l) :: ls
      | [] => [[c]]

/-- JS `arr.join(sep)` for a one-character separator. -/
def joinCh (d : Char) : List (List Char) → List Char
  | [] => []
  | [l] => l
  | l :: ls => l ++ d :: joinCh d ls

/-- Join block outputs with single line breaks (`blocks.join('\n')`). -/
def joinNl (ls : List (List Char)) : List Char := joinCh '\n' ls

/-- Split a text into source lines (`md.split('\n')`). -/
def splitLinesCh (s : List Char) : List (List Char) := splitOnCh '\n' s

/-- Replace every occurrence of the character `c` by the string `r`
(one global `String.prototype.replace` pass with a single-character pattern). -/
def replaceCharStr (c : Char) (r : List Char) : List Char → List Char
  | [] => []
  | x :: xs => (if x = c then r else [x]) ++ replaceCharStr c r xs

/-! ## JSON values

`JSON.parse` results are JavaScript values; they are modelled by `Json`.
Arrays carry an extra `props` component: in JavaScript an array is an object,
so the repair pass of `parseTodoData` can attach named properties (for example
`list.id`) to an array element.  `JSON.stringify` ignores such properties,
which is exactly what the `props` component does in the printer below.

Modelled restrictions (documented deviations from the JavaScript runtime):
JSON numbers are modelled as integers (no fractional or exponent part — the
task-board schema and every claim input use none); duplicate keys inside one
JSON object are kept in order rather than merged last-wins; `\uXXXX` escapes
denoting lone UTF-16 surrogates are rejected.
-/

mutual
inductive Json where
  | jnull : Json
  | jbool (b : Bool) : Json
  | jnum (n : Int) : Json
  | jstr (s : List Char) : Json
  | jarr (elems : JsonList) (props : JsonFields) : Json
  | jobj (fields : JsonFields) : Json
  deriving DecidableEq

inductive JsonList where
  | nil : JsonList
  | cons (hd : Json) (tl : JsonList) : JsonList
  deriving DecidableEq

inductive JsonFields where
  | nil : JsonFields
  | cons (key : List Char) (val : Json) (tl : JsonFields) : JsonFields
  deriving DecidableEq
end

/-- Length of a `JsonList`. -/
def JsonList.length : JsonList → Nat
  | .nil => 0
  | .cons _ tl => 1 + tl.length

/-- Membership of an element in a `JsonList`. -/
def JsonList.mem (v : Json) : JsonList → Prop
  | .nil => False
  | .cons hd tl => v = hd ∨ tl.mem v

/-- First field with the given key (JavaScript property lookup on a plain
parse result, whose keys are unique). -/
def lookupField (k : List Char) : JsonFields → Option Json
  | .nil => none
  | .cons k2 v tl => if k2 = k then some v else lookupField k tl

/-- Property assignment: replace the first field with the key in place, else
append (JavaScript keeps the original insertion position on overwrite). -/
def setField (k : List Char) (v : Json) : JsonFields → JsonFields
  | .nil => .cons k v .nil
  | .cons k2 v2 tl => if k2 = k then .cons k2 v tl else .cons k2 v2 (setField k v tl)

/-- JavaScript truthiness of a value. -/
def truthy : Json → Bool
  | .jnull => false
  | .jbool b => b
  | .jnum n => n ≠ 0
  | .jstr s => s ≠ []
  | .jarr _ _ => true
  | .jobj _ => true

/-- Property read `v[k]`.  `none` models a thrown `TypeError` (reading a
property of `null`); `some none` models `undefined`; named properties of an
array live in its `props` component. -/
def getPropJS : Json → List Char → Option (Option Json)
  | .jnull, _ => none
  | .jbool _, _ => some none
  | .jnum _, _ => some none
  | .jstr _, _ => some none
  | .jarr _ props, k => some (lookupField k props)
  | .jobj fs, k => some (lookupField k fs)

/-- Property write `v[k] = x`.  `none` models the `TypeError` thrown in strict
mode when assigning to a property of `null` or of a primitive. -/
def setPropJS : Json → List Char → Json → Option Json
  | .jnull, _, _ => none
  | .jbool _, _, _ => none
  | .jnum _, _, _ => none
  | .jstr _, _, _ => none
  | .jarr es props, k, v => some (.jarr es (setField k v props))
  | .jobj fs, k, v => some (.jobj (setField k v fs))

/-- Truthiness of a property-read result (`undefined` is falsy). -/
def propTruthy : Option Json → Bool
  | none => false
  | some v => truthy v

/-- `Array.isArray`. -/
def isArrayJ : Json → Bool
  | .jarr _ _ => true
  | _ => false

/-! ## JSON printing (`JSON.stringify(value, null, 2)`) -/

/-- Lowercase hexadecimal digit (used for `\u00XX` escapes). -/
def hexDigit : Nat → Char
  | 0 => '0' | 1 => '1' | 2 => '2' | 3 => '3' | 4 => '4'
  | 5 => '5' | 6 => '6' | 7 => '7' | 8 => '8' | 9 => '9'
  | 10 => 'a' | 11 => 'b' | 12 => 'c' | 13 => 'd' | 14 => 'e'
  | _ => 'f'

/-- Decimal digit character. -/
def digitCh : Nat → Char
  | 0 => '0' | 1 => '1' | 2 => '2' | 3 => '3' | 4 => '4'
  | 5 => '5' | 6 => '6' | 7 => '7' | 8 => '8' | _ => '9'

/-- Decimal digits of a natural number, most significant first (fuel-driven;
`natToChars` supplies sufficient fuel). -/
def natToCharsAux : Nat → Nat → List Char
  | 0, _ => []
  | fuel + 1, n =>
    if n < 10 then [digitCh n]
    else natToCharsAux fuel (n / 10) ++ [digitCh (n % 10)]

/-- Decimal representation of a natural number. -/
def natToChars (n : Nat) : List Char := natToCharsAux (n + 1) n

/-- Decimal representation of an integer (`JSON.stringify` on a number). -/
def intToChars : Int → List Char
  | .ofNat n => natToChars n
  | .negSucc m => '-' :: natToChars (m + 1)

/-- Escape one character of a JSON string per `JSON.stringify`. -/
def escapeJsonChar (c : Char) : List Char :=
  if c = '"' then ['\\', '"']
  else if c = '\\' then ['\\', '\\']
  else if c = '\x08' then ['\\', 'b']
  else if c = '\x0c' then ['\\', 'f']
  else if c = '\n' then ['\\', 'n']
  else if c = '\r' then ['\\', 'r']
  else if c = '\t' then ['\\', 't']
  else if c.toNat < 32 then
    ['\\', 'u', '0', '0', hexDigit (c.toNat / 16), hexDigit (c.toNat % 16)]
  else [c]

/-- Escape a whole JSON string body. -/
def escapeJsonStr : List Char → List Char
  | [] => []
  | c :: cs => escapeJsonChar c ++ escapeJsonStr cs

/-- A double-quoted JSON string literal. -/
def quoteStr (s : List Char) : List Char :=
  '"' :: escapeJsonStr s ++ ['"']

/-- Indentation of the given width. -/
def indentChars (n : Nat) : List Char := List.replicate n ' '

mutual
/-- Pretty-print a value as `JSON.stringify(v, null, 2)` does, at the given
indentation width.  Array `props` are ignored, as `JSON.stringify` ignores
non-index properties of arrays. -/
def prettyV : Nat → Json → List Char
  | _, .jnull => ['n', 'u', 'l', 'l']
  | _, .jbool true => ['t', 'r', 'u', 'e']
  | _, .jbool false => ['f', 'a', 'l', 's', 'e']
  | _, .jnum n => intToChars n
  | _, .jstr s => quoteStr s
  | ind, .jarr es _ =>
    match es with
    | .nil => ['[', ']']
    | .cons e tl =>
      '[' :: '\n' :: prettyItems (ind + 2) (.cons e tl) ++
        '\n' :: indentChars ind ++ [']']
  | ind, .jobj fs =>
    match fs with
    | .nil => ['\x7b', '\x7d']
    | .cons k v tl =>
      '\x7b' :: '\n' :: prettyFields (ind + 2) (.cons k v tl) ++
        '\n' :: indentChars ind ++ ['\x7d']

/-- Array items, each on its own indented line, separated by `,\n`. -/
def prettyItems : Nat → JsonList → List Char
  | _, .nil => []
  | ind, .cons e .nil => indentChars ind ++ prettyV ind e
  | ind, .cons e (.cons e2 tl) =>
    indentChars ind ++ prettyV ind e ++
      ',' :: '\n' :: prettyItems ind (.cons e2 tl)

/-- Object fields, each on its own indented line as `"key": value`. -/
def prettyFields : Nat → JsonFields → List Char
  | _, .nil => []
  | ind, .cons k v .nil => indentChars ind ++ quoteStr k ++ ':' :: ' ' :: prettyV ind v
  | ind, .cons k v (.cons k2 v2 tl) =>
    indentChars ind ++ quoteStr k ++ ':' :: ' ' :: prettyV ind v ++
      ',' :: '\n' :: prettyFields ind (.cons k2 v2 tl)
end

/-! ## JSON parsing (`JSON.parse`)

A recursive-descent parser over `List Char`.  A `fuel` argument bounds the
nesting of `parseValue` / `parseElems` / `parseFields` calls; `jsonParseJS`
supplies `input.length + 1`, which is always sufficient because every such
call consumes at least one input character (proved where needed below).
-/

/-- Drop JSON whitespace. -/
def skipWs (cs : List Char) : List Char := cs.dropWhile isJsonWs

/-- Value of a hexadecimal digit. -/
def hexVal (c : Char) : Option Nat :=
  if '0' ≤ c && c ≤ '9' then some (c.toNat - 48)
  else if 'a' ≤ c && c ≤ 'f' then some (c.toNat - 87)
  else if 'A' ≤ c && c ≤ 'F' then some (c.toNat - 55)
  else none

/-- Build a character from a `\uXXXX` code unit.  Lone surrogates are not
representable as Lean characters and are rejected (modelled restriction). -/
def charOfCode (n : Nat) : Option Char :=
  if h : n < 0xd800 then some (Char.ofNatAux n (by omega))
  else if h2 : 0xe000 ≤ n ∧ n < 0x110000 then some (Char.ofNatAux n (by omega))
  else none

/-- Decode a one-character string escape
(`\"`, `\\`, `\/`, `\b`, `\f`, `\n`, `\r`, `\t`). -/
def escCharVal (e : Char) : Option Char :=
  if e = '"' then some '"'
  else if e = '\\' then some '\\'
  else if e = '/' then some '/'
  else if e = 'b' then some '\x08'
  else if e = 'f' then some '\x0c'
  else if e = 'n' then some '\n'
  else if e = 'r' then some '\r'
  else if e = 't' then some '\t'
  else none

/-- Parse the body of a JSON string (after the opening quote) up to and
including the closing quote. -/
def parseStringBody : List Char → Option (List Char × List Char)
  | [] => none
  | c :: rest =>
    if c = '"' then some ([], rest)
    else if c = '\\' then
      match rest with
      | [] => none
      | e :: rest2 =>
        if e = 'u' then
          match rest2 with
          | h1 :: h2 :: h3 :: h4 :: rest3 =>
            (match hexVal h1, hexVal h2, hexVal h3, hexVal h4 with
             | some a, some b, some cc, some d =>
               (match charOfCode (((a * 16 + b) * 16 + cc) * 16 + d) with
                | some ch =>
                  (match parseStringBody rest3 with
                   | some (s, r) => some (ch :: s, r)
                   | none => none)
                | none => none)
             | _, _, _, _ => none)
          | _ => none
        else
          match escCharVal e with
          | some ch =>
            (match parseStringBody rest2 with
             | some (s, r) => some (ch :: s, r)
             | none => none)
          | none => none
    else if c.toNat < 32 then none
    else
      match parseStringBody rest with
      | some (s, r) => some (c :: s, r)
      | none => none

/-- Numeric value of a run of decimal digits. -/
def digitsToNat (acc : Nat) : List Char → Nat
  | [] => acc
  | c :: cs => digitsToNat (acc * 10 + (c.toNat - 48)) cs

/-- Parse the integer part of a JSON number (no sign).  Enforces the JSON
leading-zero rule.  Fractional and exponent parts are not modelled. -/
def parseNatPart (cs : List Char) : Option (Nat × List Char) :=
  let ds := cs.takeWhile isDigitCh
  let rest := cs.dropWhile isDigitCh
  if ds = [] then none
  else if ds = ['0'] then some (0, rest)
  else if ds.headD ' ' = '0' then none
  else some (digitsToNat 0 ds, rest)

/-- Parse a JSON number (optional minus sign, then digits). -/
def parseNumber : List Char → Option (Int × List Char)
  | [] => none
  | c :: rest =>
    if c = '-' then
      match parseNatPart rest with
      | some (n, r) => some (-(n : Int), r)
      | none => none
    else
      match parseNatPart (c :: rest) with
      | some (n, r) => some ((n : Int), r)
      | none => none

/-- Head test on a character list (used to detect `[]` / the empty object
right after the opening bracket). -/
def headIs (c : Char) : List Char → Bool
  | x :: _ => x = c
  | [] => false

mutual
/-- Parse one JSON value (leading whitespace allowed), dispatching on the
first significant character as the `JSON.parse` grammar does. -/
def parseValue : Nat → List Char → Option (Json × List Char)
  | 0, _ => none
  | fuel + 1, cs =>
    match skipWs cs with
    | [] => none
    | c :: rest =>
      if c = 'n' then
        match rest with
        | 'u' :: 'l' :: 'l' :: r => some (.jnull, r)
        | _ => none
      else if c = 't' then
        match rest with
        | 'r' :: 'u' :: 'e' :: r => some (.jbool true, r)
        | _ => none
      else if c = 'f' then
        match rest with
        | 'a' :: 'l' :: 's' :: 'e' :: r => some (.jbool false, r)
        | _ => none
      else if c = '"' then
        match parseStringBody rest with
        | some (s, r) => some (.jstr s, r)
        | none => none
      else if c = '[' then
        if headIs ']' (skipWs rest) then some (.jarr .nil .nil, (skipWs rest).tail)
        else
          match parseElems fuel rest with
          | some (es, r) => some (.jarr es .nil, r)
          | none => none
      else if c = '\x7b' then
        if headIs '\x7d' (skipWs rest) then some (.jobj .nil, (skipWs rest).tail)
        else
          match parseFields fuel rest with
          | some (fs, r) => some (.jobj fs, r)
          | none => none
      else
        match parseNumber (c :: rest) with
        | some (n, r) => some (.jnum n, r)
        | none => none

/-- Parse the non-empty element list of an array, consuming the closing `]`. -/
def parseElems : Nat → List Char → Option (JsonList × List Char)
  | 0, _ => none
  | fuel + 1, cs =>
    match parseValue fuel cs with
    | none => none
    | some (v, rest) =>
      match skipWs rest with
      | ',' :: rest2 =>
        (match parseElems fuel rest2 with
         | some (es, r) => some (.cons v es, r)
         | none => none)
      | ']' :: rest2 => some (.cons v .nil, rest2)
      | _ => none

/-- Parse the non-empty field list of an object, consuming the closing brace. -/
def parseFields : Nat → List Char → Option (JsonFields × List Char)
  | 0, _ => none
  | fuel + 1, cs =>
    match skipWs cs with
    | '"' :: rest =>
      (match parseStringBody rest with
       | none => none
       | some (k, rest2) =>
         match skipWs rest2 with
         | ':' :: rest3 =>
           (match parseValue fuel rest3 with
            | none => none
            | some (v, rest4) =>
              match skipWs rest4 with
              | ',' :: rest5 =>
                (match parseFields fuel rest5 with
                 | some (fs, r) => some (.cons k v fs, r)
                 | none => none)
              | '\x7d' :: rest5 => some (.cons k v .nil, rest5)
              | _ => none)
         | _ => none)
    | _ => none
end

/-- The whole of `JSON.parse`: one value and nothing but trailing whitespace.
`none` models a thrown `SyntaxError`. -/
def jsonParseJS (content : List Char) : Option Json :=
  match parseValue (content.length + 1) content with
  | some (v, rest) => if skipWs rest = [] then some v else none
  | none => none

/-! ## Task-board data functions (`src/renderer/todo-renderer.js`)

The module-level counter `idCounter` (seeded from `Date.now()` at process
start) is threaded explicitly as a `Nat` parameter.
-/

/-- Base-36 digit, as produced by `Number.prototype.toString(36)`. -/
def digit36 (n : Nat) : Char :=
  if n < 10 then Char.ofNat (48 + n) else Char.ofNat (87 + n)

/-- Base-36 digits of a natural number (fuel-driven as in `natToChars`). -/
def natTo36Aux : Nat → Nat → List Char
  | 0, _ => []
  | fuel + 1, n =>
    if n < 36 then [digit36 n]
    else natTo36Aux fuel (n / 36) ++ [digit36 (n % 36)]

/-- Embeds `uid()`: returns `'td-' + (idCounter++).toString(36)` and the
incremented counter. -/
def uid (counter : Nat) : List Char × Nat :=
  ('t' :: 'd' :: '-' :: natTo36Aux (counter + 1) counter, counter + 1)

/-- The literal key `"id"`. -/
def idKey : List Char := ['i', 'd']

/-- The literal key `"tasks"`. -/
def tasksKey : List Char := ['t', 'a', 's', 'k', 's']

/-- The literal key `"lists"`. -/
def listsKey : List Char := ['l', 'i', 's', 't', 's']

/-- Embeds the identifier repair `if (!x.id) x.id = uid();` shared by the list
and task loops of `parseTodoData`.  A `none` result models a thrown
`TypeError` (property access on `null`, or strict-mode assignment to a
primitive); the counter component reports the state of the module-level
`idCounter`, which survives a throw. -/
def repairId (v : Json) (c : Nat) : Option Json × Nat :=
  match getPropJS v idKey with
  | none => (none, c)
  | some idv =>
    if propTruthy idv then (some v, c)
    else
      match uid c with
      | (s, c2) =>
        match setPropJS v idKey (.jstr s) with
        | some v2 => (some v2, c2)
        | none => (none, c2)

/-- Repair every task of a list's `tasks` array
(`for (const task of list.tasks) if (!task.id) task.id = uid();`). -/
def repairTasks : JsonList → Nat → Option JsonList × Nat
  | .nil, c => (some .nil, c)
  | .cons t tl, c =>
    match repairId t c with
    | (none, c2) => (none, c2)
    | (some t2, c2) =>
      match repairTasks tl c2 with
      | (some tl2, c3) => (some (.cons t2 tl2), c3)
      | (none, c3) => (none, c3)

/-- Embeds the `tasks` half of the per-list repair:
`if (!Array.isArray(list.tasks)) list.tasks = [];` followed by the task loop. -/
def repairListTasks (l1 : Json) (c1 : Nat) : Option Json × Nat :=
  match getPropJS l1 tasksKey with
  | none => (none, c1)
  | some tv =>
    let step2 : Option Json :=
      if (match tv with | some t => isArrayJ t | none => false) then some l1
      else setPropJS l1 tasksKey (.jarr .nil .nil)
    match step2 with
    | none => (none, c1)
    | some l2 =>
      match getPropJS l2 tasksKey with
      | some (some (.jarr ts tprops)) =>
        (match repairTasks ts c1 with
         | (some ts2, c3) =>
           (match setPropJS l2 tasksKey (.jarr ts2 tprops) with
            | some l3 => (some l3, c3)
            | none => (none, c3))
         | (none, c3) => (none, c3))
      | _ => (none, c1)

/-- Embeds the per-list body of `parseTodoData`'s repair loop. -/
def repairList (list : Json) (c : Nat) : Option Json × Nat :=
  match repairId list c with
  | (none, c1) => (none, c1)
  | (some l1, c1) => repairListTasks l1 c1

/-- Repair every element of the `lists` array. -/
def repairLists : JsonList → Nat → Option JsonList × Nat
  | .nil, c => (some .nil, c)
  | .cons l tl, c =>
    match repairList l c with
    | (none, c2) => (none, c2)
    | (some l2, c2) =>
      match repairLists tl c2 with
      | (some tl2, c3) => (some (.cons l2 tl2), c3)
      | (none, c3) => (none, c3)

/-- The default document `{ lists: [] }` returned on any failure. -/
def emptyTodoDoc : Json := .jobj (.cons listsKey (.jarr .nil .nil) .nil)

/-- Embeds `parseTodoData(content)` of `src/renderer/todo-renderer.js`
(threading the module-level `idCounter`): parse the JSON text; if the result
is truthy and has an array `lists` property, repair identifiers and `tasks`
arrays in place and return the value; on a parse error, a missing/non-array
`lists`, or a repair-loop throw, return `{ lists: [] }`. -/
def parseTodoData (c : Nat) (content : List Char) : Json × Nat :=
  match jsonParseJS content with
  | none => (emptyTodoDoc, c)
  | some data =>
    if truthy data then
      match getPropJS data listsKey with
      | some (some (.jarr ls lprops)) =>
        (match repairLists ls c with
         | (some ls2, c2) =>
           (match setPropJS data listsKey (.jarr ls2 lprops) with
            | some data2 => (data2, c2)
            | none => (emptyTodoDoc, c2))
         | (none, c2) => (emptyTodoDoc, c2))
      | _ => (emptyTodoDoc, c)
    else (emptyTodoDoc, c)

/-- Embeds `serializeTodoData(data)`:
`JSON.stringify(data, null, 2) + '\n'`. -/
def serializeTodoData (d : Json) : List Char :=
  prettyV 0 d ++ ['\n']

/-! ## Markdown preview renderer — inline rules
(`renderInline` of the markdown renderer module)

Each JavaScript `String.prototype.replace` call with a global regex is
embedded as one left-to-right scanner over `List Char`: at every position it
either emits a whole match (continuing after it) or emits one character and
advances, exactly as the regex engine's non-overlapping global search does.
Every scanner carries a fuel argument initialised to `length + 1`; each step
consumes at least one character, so the fuel never runs out (the fuel-0 branch
returns the remaining input unchanged and is unreachable).
-/

/-- Embeds `escapeHtml`: four sequential global replaces of
`&`, `<`, `>`, `"`. -/
def escapeHtml (s : List Char) : List Char :=
  replaceCharStr '"' "&quot;".data
    (replaceCharStr '>' "&gt;".data
      (replaceCharStr '<' "&lt;".data
        (replaceCharStr '&' "&amp;".data s)))

/-- Inline code spans: `` out.replace(/`([^`]+)`/g, '<code>$1</code>') ``. -/
def codeSpanGo : Nat → List Char → List Char
  | 0, cs => cs
  | fuel + 1, cs =>
    match cs with
    | [] => []
    | '\x60' :: rest =>
      let run := rest.takeWhile (fun c => c ≠ '\x60')
      (match rest.drop run.length with
       | '\x60' :: rest2 =>
         if run = [] then '\x60' :: codeSpanGo fuel rest
         else "<code>".data ++ run ++ "</code>".data ++ codeSpanGo fuel rest2
       | _ => '\x60' :: codeSpanGo fuel rest)
    | c :: rest => c :: codeSpanGo fuel rest

def codeSpans (cs : List Char) : List Char := codeSpanGo (cs.length + 1) cs

/-- Images: `out.replace(/!\[([^\]]*)\]\(([^)]+)\)/g, '<img alt="$1" src="$2" />')`. -/
def imagesGo : Nat → List Char → List Char
  | 0, cs => cs
  | fuel + 1, cs =>
    match cs with
    | [] => []
    | '!' :: '[' :: rest =>
      let alt := rest.takeWhile (fun c => c ≠ ']')
      (match rest.drop alt.length with
       | ']' :: '(' :: rest2 =>
         let src := rest2.takeWhile (fun c => c ≠ ')')
         (match src, rest2.drop src.length with
          | _ :: _, ')' :: rest3 =>
            "<img alt=\"".data ++ alt ++ "\" src=\"".data ++ src ++ "\" />".data ++
              imagesGo fuel rest3
          | _, _ => '!' :: imagesGo fuel ('[' :: rest))
       | _ => '!' :: imagesGo fuel ('[' :: rest))
    | c :: rest => c :: imagesGo fuel rest

def images (cs : List Char) : List Char := imagesGo (cs.length + 1) cs

/-- Links: `out.replace(/\[([^\]]+)\]\(([^)]+)\)/g,
'<a href="$2" target="_blank" rel="noopener">$1</a>')`. -/
def linksGo : Nat → List Char → List Char
  | 0, cs => cs
  | fuel + 1, cs =>
    match cs with
    | [] => []
    | '[' :: rest =>
      let txt := rest.takeWhile (fun c => c ≠ ']')
      (match txt, rest.drop txt.length with
       | _ :: _, ']' :: '(' :: rest2 =>
         let url := rest2.takeWhile (fun c => c ≠ ')')
         (match url, rest2.drop url.length with
          | _ :: _, ')' :: rest3 =>
            "<a href=\"".data ++ url ++ "\" target=\"_blank\" rel=\"noopener\">".data ++
              txt ++ "</a>".data ++ linksGo fuel rest3
          | _, _ => '[' :: linksGo fuel rest)
       | _, _ => '[' :: linksGo fuel rest)
    | c :: rest => c :: linksGo fuel rest

def links (cs : List Char) : List Char := linksGo (cs.length + 1) cs

/-- Lazy body scan for a delimiter pair: consume at least one character (never
a newline, since `.` does not match `\n`), closing at the earliest position
where `closing` follows, as `(.+?)` does. -/
def scanLazy (closing : List Char) : List Char → Option (List Char × List Char)
  | [] => none
  | c :: rest =>
    if c = '\n' then none
    else if startsWithCh closing rest then some ([c], rest.drop closing.length)
    else
      match scanLazy closing rest with
      | some (content, r) => some (c :: content, r)
      | none => none

/-- One global pass replacing `delim (.+?) delim` by
`pre ++ body ++ post` (used for `***`, `___`, `**`, `__`, `*`, `~~`). -/
def delimPassGo (delim pre post : List Char) : Nat → List Char → List Char
  | 0, cs => cs
  | fuel + 1, cs =>
    match cs with
    | [] => []
    | c :: rest =>
      if startsWithCh delim (c :: rest) then
        match scanLazy delim ((c :: rest).drop delim.length) with
        | some (content, r) =>
          pre ++ content ++ post ++ delimPassGo delim pre post fuel r
        | none => c :: delimPassGo delim pre post fuel rest
      else c :: delimPassGo delim pre post fuel rest

def delimPass (delim pre post cs : List Char) : List Char :=
  delimPassGo delim pre post (cs.length + 1) cs

/-- Bold+italic `***text***`. -/
def starBoldItal (cs : List Char) : List Char :=
  delimPass "***".data "<strong><em>".data "</em></strong>".data cs

/-- Bold+italic `___text___`. -/
def underBoldItal (cs : List Char) : List Char :=
  delimPass "___".data "<strong><em>".data "</em></strong>".data cs

/-- Bold `**text**`. -/
def starBold (cs : List Char) : List Char :=
  delimPass "**".data "<strong>".data "</strong>".data cs

/-- Bold `__text__`. -/
def underBold (cs : List Char) : List Char :=
  delimPass "__".data "<strong>".data "</strong>".data cs

/-- Italic `*text*`. -/
def starItal (cs : List Char) : List Char :=
  delimPass "*".data "<em>".data "</em>".data cs

/-- Strikethrough `~~text~~`. -/
def strike (cs : List Char) : List Char :=
  delimPass "~~".data "<del>".data "</del>".data cs

/-- Lazy body scan for the underscore italic rule: the closing `_` must not be
followed by a word character (`(?<!\w)_(.+?)_(?!\w)`, closing side). -/
def scanUnderClose : List Char → Option (List Char × List Char)
  | [] => none
  | c :: rest =>
    if c = '\n' then none
    else
      match rest with
      | '_' :: rest2 =>
        if (match rest2 with | x :: _ => isWordCh x | [] => false) then
          match scanUnderClose rest with
          | some (content, r) => some (c :: content, r)
          | none => none
        else some ([c], rest2)
      | _ =>
        match scanUnderClose rest with
        | some (content, r) => some (c :: content, r)
        | none => none

/-- Italic `_text_` with the `(?<!\w)` / `(?!\w)` guards.  `prev` is the
original character immediately before the current position (the lookbehind
inspects the input string, not the built output). -/
def underItalGo : Nat → Option Char → List Char → List Char
  | 0, _, cs => cs
  | fuel + 1, prev, cs =>
    match cs with
    | [] => []
    | '_' :: rest =>
      if (match prev with | some p => isWordCh p | none => false) then
        '_' :: underItalGo fuel (some '_') rest
      else
        match scanUnderClose rest with
        | some (content, r) =>
          "<em>".data ++ content ++ "</em>".data ++ underItalGo fuel (some '_') r
        | none => '_' :: underItalGo fuel (some '_') rest
    | c :: rest => c :: underItalGo fuel (some c) rest

def underItal (cs : List Char) : List Char := underItalGo (cs.length + 1) none cs

/-- Character allowed in a bare URL (`[^\s<]`). -/
def isUrlCh (c : Char) : Bool := !(isJsWs c) && c ≠ '<'

/-- Bare URL auto-linking:
`out.replace(/(?<!["=])(https?:\/\/[^\s<]+)/g, '<a href="$1" target="_blank" rel="noopener">$1</a>')`. -/
def autoLinkGo : Nat → Option Char → List Char → List Char
  | 0, _, cs => cs
  | fuel + 1, prev, cs =>
    match cs with
    | [] => []
    | c :: rest =>
      let prefKind : Option Nat :=
        if startsWithCh "https://".data (c :: rest) then some 8
        else if startsWithCh "http://".data (c :: rest) then some 7
        else none
      match prefKind with
      | some k =>
        if (match prev with | some p => p = '"' || p = '=' | none => false) then
          c :: autoLinkGo fuel (some c) rest
        else
          let tail := ((c :: rest).drop k).takeWhile isUrlCh
          (match tail with
           | [] => c :: autoLinkGo fuel (some c) rest
           | _ :: _ =>
             let url := (c :: rest).take k ++ tail
             let after := ((c :: rest).drop k).drop tail.length
             "<a href=\"".data ++ url ++ "\" target=\"_blank\" rel=\"noopener\">".data ++
               url ++ "</a>".data ++ autoLinkGo fuel (url.getLast? ) after)
      | none => c :: autoLinkGo fuel (some c) rest

def autoLink (cs : List Char) : List Char := autoLinkGo (cs.length + 1) none cs

/-- Line breaks: `out.replace(/ {2,}$/gm, '<br>')` — a run of two or more
spaces immediately before a line end becomes `<br>`. -/
def lineBreaksGo : Nat → List Char → List Char
  | 0, cs => cs
  | fuel + 1, cs =>
    match cs with
    | [] => []
    | ' ' :: rest =>
      let run := rest.takeWhile (fun c => c = ' ')
      let after := rest.drop run.length
      if run.length + 1 ≥ 2 && (after = [] || after.headD ' ' = '\n') then
        "<br>".data ++ lineBreaksGo fuel after
      else
        ' ' :: run ++ lineBreaksGo fuel after
    | c :: rest => c :: lineBreaksGo fuel rest

def lineBreaks (cs : List Char) : List Char := lineBreaksGo (cs.length + 1) cs

/-- Embeds `renderInline(text)`: the ten substitution steps in source order,
each operating on the result of the previous one. -/
def renderInline (s : List Char) : List Char :=
  lineBreaks (autoLink (strike (underItal (starItal
    (underBold (starBold (underBoldItal (starBoldItal
      (links (images (codeSpans (escapeHtml s))))))))))))

/-! ## Markdown preview renderer — block rules (`renderMarkdown`)

The block parsers index into the line array with `getD` (every access is in
range, as in the source).  Where the source returns `endIndex` and the main
loop resumes at `endIndex + 1`, the embeddings return the resume index
directly (`nextIndex = endIndex + 1`), which avoids the `-1` that
`parseBlockquote` can produce for `endIndex` on a zero-line match.
-/

/-- Dispatch test for a fenced code block: `/^(`{3,}|~{3,})/.test(trimmed)`. -/
def fenceTest (t : List Char) : Bool :=
  startsWithCh "\x60\x60\x60".data t || startsWithCh "~~~".data t

/-- Horizontal-rule pattern `^([-*_])\s*\1\s*\1[\s\-*_]*$`. -/
def hrPattern (t : List Char) : Bool :=
  match t with
  | c :: rest =>
    if c = '-' || c = '*' || c = '_' then
      match rest.dropWhile isJsWs with
      | c2 :: rest2 =>
        c2 = c &&
          (match rest2.dropWhile isJsWs with
           | c3 :: rest3 =>
             c3 = c && rest3.all (fun x => isJsWs x || x = '-' || x = '*' || x = '_')
           | [] => false)
      | [] => false
    else false
  | [] => false

/-- Full horizontal-rule test:
`/^([-*_])\s*\1\s*\1[\s\-*_]*$/.test(trimmed) && trimmed.replace(/\s/g, '').length >= 3`. -/
def hrTest (t : List Char) : Bool :=
  hrPattern t && (t.filter (fun c => !(isJsWs c))).length ≥ 3

/-- Tail test `^\s+#*$` for the heading regex's optional trailing-hash group. -/
def wsHashTail (cs : List Char) : Bool :=
  match cs with
  | c :: rest => isJsWs c && (rest.dropWhile isJsWs).all (fun x => x = '#')
  | [] => false

/-- The lazy `(.*?)` of the heading regex: the shortest prefix whose remainder
is empty or matches `\s+#*$`. -/
def stripTrailHash : List Char → List Char
  | [] => []
  | c :: rest => if wsHashTail (c :: rest) then [] else c :: stripTrailHash rest

/-- Heading match `/^(#{1,6})\s+(.*?)(?:\s+#*)?$/` on the trimmed line,
returning the level and the heading text. -/
def headingMatch (t : List Char) : Option (Nat × List Char) :=
  let hashes := t.takeWhile (fun c => c = '#')
  let k := hashes.length
  if 1 ≤ k && k ≤ 6 then
    match t.drop k with
    | c :: _ =>
      if isJsWs c then some (k, stripTrailHash ((t.drop k).dropWhile isJsWs))
      else none
    | [] => none
  else none

/-- Replace each whitespace run by a single hyphen (`.replace(/\s+/g, '-')`);
the flag records whether the previous character was inside a whitespace run. -/
def collapseWsGo (inRun : Bool) : List Char → List Char
  | [] => []
  | c :: rest =>
    if isJsWs c then
      if inRun then collapseWsGo true rest else '-' :: collapseWsGo true rest
    else c :: collapseWsGo false rest

/-- Anchor id derivation:
`text.toLowerCase().replace(/[^\w\s-]/g, '').replace(/\s+/g, '-')`. -/
def headingAnchor (text : List Char) : List Char :=
  let lowered := text.map Char.toLower
  let kept := lowered.filter (fun c => isWordCh c || isJsWs c || c = '-')
  collapseWsGo false kept

/-- Heading block output:
``<h{level} id="{escapeHtml(id)}">{renderInline(text)}</h{level}>``. -/
def headingHtml (level : Nat) (text : List Char) : List Char :=
  "<h".data ++ [digitCh level] ++ " id=\"".data ++ escapeHtml (headingAnchor text) ++
    "\">".data ++ renderInline text ++ "</h".data ++ [digitCh level] ++ [ '>' ]

/-- Opening-fence match on the raw line:
`/^(`{3,}|~{3,})\s*(.*)?$/` — returns the fence run and the language label
(`(openMatch[2] || '').trim()`). -/
def openFenceMatch (line : List Char) : Option (List Char × List Char) :=
  match line with
  | c :: _ =>
    if c = '\x60' || c = '~' then
      let fence := line.takeWhile (fun x => x = c)
      if fence.length ≥ 3 then
        some (fence, trimChars ((line.drop fence.length).dropWhile isJsWs))
      else none
    else none
  | [] => none

/-- Closing-fence search of `parseCodeBlock`: from index `i`, the first line
whose `trimEnd()` equals the closing fence or which starts with it; collects
the verbatim code lines while searching. -/
def codeFenceScan (closeFence : List Char) (lines : List (List Char)) :
    Nat → Nat → List (List Char) × Nat
  | 0, i => ([], i)
  | fuel + 1, i =>
    if i < lines.length then
      let line := lines.getD i []
      if trimEndChars line = closeFence || startsWithCh closeFence line then
        ([], i)
      else
        match codeFenceScan closeFence lines fuel (i + 1) with
        | (ls, iEnd) => (line :: ls, iEnd)
    else ([], i)

/-- Embeds `parseCodeBlock(lines, startIndex)`.  Returns the block markup and
the resume index (one past the closing fence, or one past end of input). -/
def parseCodeBlockMd (lines : List (List Char)) (i : Nat) :
    Option (List Char × Nat) :=
  match openFenceMatch (lines.getD i []) with
  | none => none
  | some (fence, lang) =>
    let closeFence := List.replicate fence.length (fence.headD '\x60')
    match codeFenceScan closeFence lines (lines.length + 1) (i + 1) with
    | (codeLines, iClose) =>
      let code := escapeHtml (joinNl codeLines)
      let langAttr :=
        if lang ≠ [] then " class=\"language-".data ++ escapeHtml lang ++ [ '"' ]
        else []
      some ("<pre><code".data ++ langAttr ++ '>' :: code ++ "</code></pre>".data,
        iClose + 1)

/-- Separator-line test `/^[\s|:-]+$/` (plus nonemptiness). -/
def sepLinePattern (t : List Char) : Bool :=
  t ≠ [] && t.all (fun c => isJsWs c || c = '|' || c = ':' || c = '-')

/-- Cell splitting of `parseTable`: trim, strip one leading and one trailing
pipe, split on `|`, trim each cell. -/
def parseCells (line : List Char) : List (List Char) :=
  let l0 := trimChars line
  let l1 := if startsWithCh "|".data l0 then l0.drop 1 else l0
  let l2 := if l1.reverse.headD ' ' = '|' then l1.dropLast else l1
  (splitOnCh '|' l2).map trimChars

/-- Separator-cell pattern `^:?-+:?$`. -/
def sepCellOk (c : List Char) : Bool :=
  let a := if startsWithCh ":".data c then c.drop 1 else c
  let b := if a.reverse.headD ' ' = ':' then a.dropLast else a
  b ≠ [] && b.all (fun x => x = '-')

/-- Column alignment from a separator cell. -/
def cellAlign (c : List Char) : List Char :=
  let left := startsWithCh ":".data c
  let right := c.reverse.headD ' ' = ':'
  if left && right then "center".data
  else if right then "right".data
  else "left".data

/-- One header cell `<th align="...">...</th>\n`. -/
def thCell (align h : List Char) : List Char :=
  "<th align=\"".data ++ align ++ "\">".data ++ renderInline h ++ "</th>\n".data

/-- One body cell `<td align="...">...</td>\n`. -/
def tdCell (align cell : List Char) : List Char :=
  "<td align=\"".data ++ align ++ "\">".data ++ renderInline cell ++ "</td>\n".data

/-- Body-row loop of `parseTable`: consumes lines that are nonblank and
contain (or start with) a pipe, rendering each as a `<tr>`. -/
def tableRowsScan (headers aligns : List (List Char))
    (lines : List (List Char)) : Nat → Nat → List Char × Nat
  | 0, i => ([], i)
  | fuel + 1, i =>
    if i < lines.length then
      let line := trimChars (lines.getD i [])
      if line = [] || (!(line.contains '|') && !(startsWithCh "|".data line)) then
        ([], i)
      else
        let cells := parseCells line
        let row :=
          "<tr>\n".data ++
            (List.range headers.length).foldr
              (fun idx acc =>
                tdCell ((aligns.getD idx "left".data)) (cells.getD idx []) ++ acc)
              [] ++
          "</tr>\n".data
        match tableRowsScan headers aligns lines fuel (i + 1) with
        | (restRows, iEnd) => (row ++ restRows, iEnd)
    else ([], i)

/-- Embeds `parseTable(lines, startIndex)`.  Returns the table markup and the
resume index, or `none` when separator validation rejects the lookahead. -/
def parseTableMd (lines : List (List Char)) (i : Nat) :
    Option (List Char × Nat) :=
  if i + 1 ≥ lines.length then none
  else
    let headerLine := trimChars (lines.getD i [])
    let separatorLine := trimChars (lines.getD (i + 1) [])
    if !(sepLinePattern separatorLine) || !(separatorLine.contains '-') then none
    else
      let headers := parseCells headerLine
      let sepCells := parseCells separatorLine
      if !(sepCells.all sepCellOk) then none
      else
        let aligns := sepCells.map cellAlign
        let headHtml :=
          "<table>\n<thead>\n<tr>\n".data ++
            (List.range headers.length).foldr
              (fun idx acc =>
                thCell (aligns.getD idx "left".data) (headers.getD idx []) ++ acc)
              [] ++
          "</tr>\n</thead>\n<tbody>\n".data
        match tableRowsScan headers aligns lines (lines.length + 1) (i + 2) with
        | (rows, iEnd) =>
          some (headHtml ++ rows ++ "</tbody>\n</table>".data, iEnd)

/-- Unordered-list line test `/^\s*[-*+]\s/`. -/
def ulTest (line : List Char) : Bool :=
  match line.dropWhile isJsWs with
  | m :: c :: _ => (m = '-' || m = '*' || m = '+') && isJsWs c
  | _ => false

/-- Ordered-list line test `/^\s*\d+\.\s/`. -/
def olTest (line : List Char) : Bool :=
  let r := line.dropWhile isJsWs
  let ds := r.takeWhile isDigitCh
  ds ≠ [] &&
    (match r.drop ds.length with
     | '.' :: c :: _ => isJsWs c
     | _ => false)

/-- Item match `/^(\s*)([-*+])\s+(.*)/`, returning the content capture. -/
def ulItemMatch (line : List Char) : Option (List Char) :=
  match line.dropWhile isJsWs with
  | m :: rest =>
    if m = '-' || m = '*' || m = '+' then
      match rest with
      | c :: _ => if isJsWs c then some (rest.dropWhile isJsWs) else none
      | [] => none
    else none
  | [] => none

/-- Item match `/^(\s*)(\d+)\.\s+(.*)/`, returning the content capture. -/
def olItemMatch (line : List Char) : Option (List Char) :=
  let r := line.dropWhile isJsWs
  let ds := r.takeWhile isDigitCh
  if ds = [] then none
  else
    match r.drop ds.length with
    | '.' :: rest =>
      (match rest with
       | c :: _ => if isJsWs c then some (rest.dropWhile isJsWs) else none
       | [] => none)
    | _ => none

/-- Task marker match `/^\[([ xX]?)\]\s*(.*)/` on an item's content, returning
the checked state and the remaining content. -/
def taskMatchMd (content : List Char) : Option (Bool × List Char) :=
  match content with
  | '[' :: ']' :: rest => some (false, rest.dropWhile isJsWs)
  | '[' :: c :: ']' :: rest =>
    if c = ' ' || c = 'x' || c = 'X' then
      some (c = 'x' || c = 'X', rest.dropWhile isJsWs)
    else none
  | _ => none

/-- Rendered content of a task item (disabled checkbox plus inline text). -/
def taskItemHtml (checked : Bool) (tc : List Char) : List Char :=
  "<input type=\"checkbox\" class=\"md-preview-checkbox\"".data ++
    (if checked then " checked disabled".data else " disabled".data) ++
    '>' :: ' ' :: renderInline tc

/-- Continuation test `/^\s{2,}/` (the line begins with two whitespace
characters). -/
def startsWith2Ws (line : List Char) : Bool :=
  match line with
  | a :: b :: _ => isJsWs a && isJsWs b
  | _ => false

/-- Append text to the content of the last item
(`lastItem.content += ' ' + ...`). -/
def appendToLast (items : List (List Char × Bool)) (extra : List Char) :
    List (List Char × Bool) :=
  match items.reverse with
  | [] => []
  | (c, t) :: rest => ((c ++ extra, t) :: rest).reverse

/-- Continuation-line loop of `parseList`: blank lines continue the list only
when followed by another item of the same kind; indented non-item lines are
appended to the previous item. -/
def listContinuation (lines : List (List Char)) (isOrdered : Bool) :
    Nat → Nat → List (List Char × Bool) → List (List Char × Bool) × Nat
  | 0, i, items => (items, i)
  | fuel + 1, i, items =>
    if i < lines.length then
      let nextLine := lines.getD i []
      if trimChars nextLine = [] then
        if i + 1 < lines.length &&
            (if isOrdered then olTest (lines.getD (i + 1) [])
             else ulTest (lines.getD (i + 1) [])) then
          (items, i + 1)
        else (items, i)
      else if startsWith2Ws nextLine &&
          !(if isOrdered then olTest nextLine else ulTest nextLine) then
        listContinuation lines isOrdered fuel (i + 1)
          (appendToLast items (' ' :: renderInline (trimChars nextLine)))
      else (items, i)
    else (items, i)

/-- Item loop of `parseList`. -/
def listLoop (lines : List (List Char)) (isOrdered : Bool) :
    Nat → Nat → List (List Char × Bool) → List (List Char × Bool) × Nat
  | 0, i, items => (items, i)
  | fuel + 1, i, items =>
    if i < lines.length then
      match (if isOrdered then olItemMatch (lines.getD i [])
             else ulItemMatch (lines.getD i [])) with
      | none => (items, i)
      | some content =>
        let item :=
          match taskMatchMd content with
          | some (checked, tc) => (taskItemHtml checked tc, true)
          | none => (renderInline content, false)
        match listContinuation lines isOrdered (lines.length + 1) (i + 1)
            (items ++ [item]) with
        | (items2, i2) => listLoop lines isOrdered fuel i2 items2
    else (items, i)

/-- Embeds `parseList(lines, startIndex)`; returns the list markup and the
resume index. -/
def parseListMd (lines : List (List Char)) (i : Nat) : List Char × Nat :=
  let isOrdered := olTest (lines.getD i [])
  let tag := if isOrdered then "ol".data else "ul".data
  match listLoop lines isOrdered (lines.length + 1) i [] with
  | (items, iEnd) =>
    ('<' :: tag ++ '>' :: '\n' ::
      items.foldr
        (fun item acc =>
          "<li".data ++
            (if item.2 then " class=\"task-list-item\"".data else []) ++
            '>' :: item.1 ++ "</li>\n".data ++ acc)
        [] ++
      '<' :: '/' :: tag ++ [ '>' ], iEnd)

/-- Blockquote line test `/^>\s?/` (equivalent to starting with `>` since the
whitespace is optional) — note: tested against the raw, untrimmed line. -/
def bqLineTest (l : List Char) : Bool := startsWithCh ">".data l

/-- Marker stripping `line.replace(/^>\s?/, '')`. -/
def bqStripMarker (l : List Char) : List Char :=
  match l with
  | '>' :: c :: rest => if isJsWs c then rest else c :: rest
  | '>' :: [] => []
  | _ => l

/-- Quote-line collection loop of `parseBlockquote`; returns the collected
inner lines and the resume index. -/
def bqCollect (lines : List (List Char)) :
    Nat → Nat → List (List Char) × Nat
  | 0, i => ([], i)
  | fuel + 1, i =>
    if i < lines.length then
      let line := lines.getD i []
      if bqLineTest line then
        match bqCollect lines fuel (i + 1) with
        | (qs, iE) => (bqStripMarker line :: qs, iE)
      else if trimChars line = [] && i + 1 < lines.length &&
          bqLineTest (lines.getD (i + 1) []) then
        match bqCollect lines fuel (i + 1) with
        | (qs, iE) => ([] :: qs, iE)
      else ([], i)
    else ([], i)

/-- Heading prefix test `/^#{1,6}\s/` used by the paragraph break checks. -/
def paraHeadingTest (t : List Char) : Bool :=
  let k := (t.takeWhile (fun c => c = '#')).length
  1 ≤ k && k ≤ 6 &&
    (match t.drop k with
     | c :: _ => isJsWs c
     | [] => false)

/-- Paragraph accumulation loop of `renderMarkdown` (the fallback block rule):
collects consecutive lines until one would start another block. -/
def paraCollect (lines : List (List Char)) :
    Nat → Nat → List (List Char) → List (List Char) × Nat
  | 0, i, acc => (acc, i)
  | fuel + 1, i, acc =>
    if i < lines.length then
      let pLine := lines.getD i []
      let pTrimmed := trimChars pLine
      if pTrimmed = [] then (acc, i)
      else if paraHeadingTest pTrimmed then (acc, i)
      else if fenceTest pTrimmed then (acc, i)
      else if bqLineTest pLine then (acc, i)
      else if ulTest pLine && acc.isEmpty then (acc, i)
      else if olTest pLine && acc.isEmpty then (acc, i)
      else if hrTest pTrimmed then (acc, i)
      else if pTrimmed.contains '|' && i + 1 < lines.length &&
          sepLinePattern (trimChars (lines.getD (i + 1) [])) &&
          (lines.getD (i + 1) []).contains '-' then (acc, i)
      else paraCollect lines fuel (i + 1) (acc ++ [pLine])
    else (acc, i)

/-- The block-level loop of `renderMarkdown`.  One unit of fuel is spent per
loop iteration and per recursive blockquote rendering; `none` reports fuel
exhaustion.  The source's `while (i < lines.length)` loop has no such bound —
`renderMarkdownF` returning `none` for every fuel value at some input
exhibits an infinite loop of the JavaScript original. -/
def mdLoop : Nat → List (List Char) → Nat → List (List Char) →
    Option (List (List Char))
  | 0, _, _, _ => none
  | fuel + 1, lines, i, blocks =>
    if i < lines.length then
      let line := lines.getD i []
      let trimmed := trimChars line
      if trimmed = [] then mdLoop fuel lines (i + 1) blocks
      else
        let codeRes :=
          if fenceTest trimmed then parseCodeBlockMd lines i else none
        match codeRes with
        | some (html, ni) => mdLoop fuel lines ni (blocks ++ [html])
        | none =>
          if hrTest trimmed then
            mdLoop fuel lines (i + 1) (blocks ++ ["<hr>".data])
          else
            match headingMatch trimmed with
            | some (k, text) =>
              mdLoop fuel lines (i + 1) (blocks ++ [headingHtml k text])
            | none =>
              let tableRes :=
                if trimmed.contains '|' && i + 1 < lines.length then
                  parseTableMd lines i
                else none
              match tableRes with
              | some (html, ni) => mdLoop fuel lines ni (blocks ++ [html])
              | none =>
                if startsWithCh ">".data trimmed then
                  match bqCollect lines (lines.length + 1) i with
                  | (qls, ni) =>
                    match mdLoop fuel (splitLinesCh (joinNl qls)) 0 [] with
                    | none => none
                    | some innerBlocks =>
                      mdLoop fuel lines ni
                        (blocks ++
                          ["<blockquote>".data ++ joinNl innerBlocks ++
                            "</blockquote>".data])
                else if ulTest line || olTest line then
                  match parseListMd lines i with
                  | (html, ni) => mdLoop fuel lines ni (blocks ++ [html])
                else
                  match paraCollect lines (lines.length + 1) i [] with
                  | (acc, ni) =>
                    if acc.isEmpty then
                      -- Safety: skip line to avoid infinite loop
                      mdLoop fuel lines (ni + 1) blocks
                    else
                      mdLoop fuel lines ni
                        (blocks ++
                          ['<' :: 'p' :: '>' :: renderInline (joinNl acc) ++
                            "</p>".data])
    else some blocks

/-- Embeds `renderMarkdown(md)` with explicit fuel: split into lines, run the
block loop, join the block outputs with line breaks. -/
def renderMarkdownF (fuel : Nat) (md : List Char) : Option (List Char) :=
  (mdLoop fuel (splitLinesCh md) 0 []).map joinNl

/-! ## Statement vocabulary for the task-board claims -/

/-- Property read as the repair loop sees it: `none` is `undefined` (also for
values whose property access would throw — only used on non-throwing values). -/
def readProp (v : Json) (k : List Char) : Option Json :=
  match getPropJS v k with
  | some o => o
  | none => none

/-- The `lists` array of a document, when present. -/
def docLists (d : Json) : Option (JsonList × JsonFields) :=
  match getPropJS d listsKey with
  | some (some (.jarr ls lp)) => some (ls, lp)
  | _ => none

/-- The detection test `data && Array.isArray(data.lists)`. -/
def hasArrayLists (d : Json) : Bool :=
  truthy d &&
    (match readProp d listsKey with
     | some v => isArrayJ v
     | none => false)

/-- Conjunction of a Boolean predicate over a `JsonList`. -/
def allJL (p : Json → Bool) : JsonList → Bool
  | .nil => true
  | .cons h t => p h && allJL p t

/-- A freshly generated identifier: a string of the form `td-…` (hence
non-empty). -/
def isTdString : Option Json → Bool
  | some (.jstr ('t' :: 'd' :: '-' :: _)) => true
  | _ => false

/-- A repaired task: its `id` is truthy. -/
def goodTaskB (t : Json) : Bool := propTruthy (readProp t idKey)

/-- A repaired list: truthy `id`, `tasks` an array of repaired tasks. -/
def goodListB (l : Json) : Bool :=
  propTruthy (readProp l idKey) &&
    (match readProp l tasksKey with
     | some (.jarr ts _) => allJL goodTaskB ts
     | _ => false)

/-- Pointwise id relation between an element before and after repair: a
truthy id is kept unchanged, a falsy/missing one is replaced by a generated
`td-…` string. -/
def idRepairedFrom (x x2 : Json) : Prop :=
  (propTruthy (readProp x idKey) = true → readProp x2 idKey = readProp x idKey) ∧
  (propTruthy (readProp x idKey) = false → isTdString (readProp x2 idKey) = true)

/-- Pointwise repair relation on task sequences (same length, ids repaired). -/
def tasksRepairedFrom : JsonList → JsonList → Prop
  | .nil, .nil => True
  | .cons t ts, .cons t2 ts2 => idRepairedFrom t t2 ∧ tasksRepairedFrom ts ts2
  | _, _ => False

/-- Pointwise repair relation on one list element: id repaired; an array
`tasks` keeps its elements (ids repaired), anything else becomes `[]`. -/
def listRepairedFrom (l l2 : Json) : Prop :=
  idRepairedFrom l l2 ∧
    (match readProp l tasksKey with
     | some (.jarr ts _) =>
       ∃ ts2 tp, readProp l2 tasksKey = some (.jarr ts2 tp) ∧ tasksRepairedFrom ts ts2
     | _ => readProp l2 tasksKey = some (.jarr .nil .nil))

/-- Pointwise repair relation on the whole `lists` sequence. -/
def listsRepairedFrom : JsonList → JsonList → Prop
  | .nil, .nil => True
  | .cons l ls, .cons l2 ls2 => listRepairedFrom l l2 ∧ listsRepairedFrom ls ls2
  | _, _ => False

/-- A task element that is a plain object. -/
def objTaskB : Json → Bool
  | .jobj _ => true
  | _ => false

/-- A list element that is a plain object whose `tasks` elements (when an
array) are plain objects. -/
def objListB (l : Json) : Bool :=
  match l with
  | .jobj _ =>
    (match readProp l tasksKey with
     | some (.jarr ts _) => allJL objTaskB ts
     | _ => true)
  | _ => false

/-- Every list of the document is a plain object with plain-object tasks
(the shape on which the repair loop cannot throw and identifiers survive
serialization). -/
def objListsDoc (doc : Json) : Bool :=
  match docLists doc with
  | some (ls, _) => allJL objListB ls
  | none => false

mutual
/-- No array in the value carries expando `props` (every `JSON.parse` result
is of this shape; `JSON.stringify` then loses nothing). -/
def jpureV : Json → Bool
  | .jnull => true
  | .jbool _ => true
  | .jnum _ => true
  | .jstr _ => true
  | .jarr es props => (match props with | .nil => true | _ => false) && jpureL es
  | .jobj fs => jpureF fs

def jpureL : JsonList → Bool
  | .nil => true
  | .cons h t => jpureV h && jpureL t

def jpureF : JsonFields → Bool
  | .nil => true
  | .cons _ v t => jpureV v && jpureF t
end

mutual
/-- Fuel needed by `parseValue` to parse this value's printed form. -/
def jfuelV : Json → Nat
  | .jnull => 1
  | .jbool _ => 1
  | .jnum _ => 1
  | .jstr _ => 1
  | .jarr es _ => 1 + jfuelL es
  | .jobj fs => 1 + jfuelF fs

def jfuelL : JsonList → Nat
  | .nil => 1
  | .cons h t => 1 + jfuelV h + jfuelL t

def jfuelF : JsonFields → Nat
  | .nil => 1
  | .cons _ v t => 1 + jfuelV v + jfuelF t
end

/-- Condition on what may follow a printed JSON value: nothing, or a
character that cannot extend the value (only a digit could). -/
def restOk : List Char → Prop
  | [] => True
  | c :: _ => isDigitCh c = false

/-- A run of JSON whitespace. -/
def wsOnly (l : List Char) : Prop := ∀ c ∈ l, isJsonWs c = true

/-! ## Tab manager (`src/renderer/tab-manager.js`)

The module state (`tabs`, `activeTabId`, `tabIdCounter`, `currentFontSize`,
plus the todo-renderer module's `idCounter`) is an explicit record.  DOM
elements, the CodeMirror editor view and the per-tab auto-save controller
object are not part of the data model; the editor view's document is modelled
by the `editorContent` field (what `getEditorContent(tab.editorView)` returns)
and two verification-only ghost fields record what an in-flight save captured
(`pendingSave`) and what was last actually written (`diskContent`).
-/

structure Tab where
  id : String
  filePath : Option String
  title : String
  modified : Bool
  readOnly : Bool
  isTodo : Bool
  todoData : Option Json
  /-- Current document of the tab's editor surface
  (`getEditorContent(tab.editorView)`); unused for task-board tabs. -/
  editorContent : String
  /-- The source's `content` field: the last-saved content baseline. -/
  content : String
  /-- Ghost: content captured by `performSave`'s `getSaveData()` call for an
  in-flight save. -/
  pendingSave : Option String
  /-- Ghost: content most recently written by a completed save. -/
  diskContent : Option String
  deriving DecidableEq

structure TMState where
  tabs : List Tab
  activeTabId : Option String
  tabIdCounter : Nat
  currentFontSize : Nat
  /-- The todo-renderer module's `idCounter` global. -/
  todoCounter : Nat
  deriving DecidableEq

/-- The initial module state (`tabs = []`, `activeTabId = null`,
`tabIdCounter = 0`, `currentFontSize = 15`); the todo id counter's
`Date.now()` seed is a parameter. -/
def initialTM (todoSeed : Nat) : TMState :=
  ⟨[], none, 0, 15, todoSeed⟩

/-- Embeds `generateTabId` (`'tab-' + (++tabIdCounter)`). -/
def generateTabId (n : Nat) : String := "tab-" ++ toString n

/-- Embeds `getFilename(filePath)`: backslashes to slashes, split on `/`,
last segment; `'Untitled'` when no path. -/
def getFilename (fp : Option String) : String :=
  match fp with
  | none => "Untitled"
  | some s =>
    String.mk (((splitOnCh '/' (replaceCharStr '\\' "/".data s.data)).reverse).headD [])

/-- JavaScript truthiness of an optional path string (`if (filePath)`). -/
def pathTruthy : Option String → Bool
  | none => false
  | some p => p ≠ ""

/-- The dedup lookup `tabs.find(t => t.filePath === filePath)`. -/
def findTabByPath (tabs : List Tab) (p : String) : Option Tab :=
  tabs.find? (fun t => t.filePath = some p)

/-- Apply `f` to the tab with the given id (the `tabs.find` + in-place
mutation pattern used throughout the source). -/
def updateTab (s : TMState) (tabId : String) (f : Tab → Tab) : TMState :=
  { s with tabs := s.tabs.map (fun t => if t.id = tabId then f t else t) }

/-- Embeds `activateTab(tabId)`: no-op when the id is unknown, otherwise the
target becomes the active tab (indicator/visibility changes elided). -/
def activateTab (s : TMState) (tabId : String) : TMState :=
  if (s.tabs.find? (fun t => t.id = tabId)).isSome then
    { s with activeTabId := some tabId }
  else s

/-- The fresh-tab half of `createTab` (after the dedup check): allocate an
identifier, build the tab object with the content as saved baseline, append
it, activate it. -/
def createTabFresh (s : TMState) (filePath : Option String) (content : String) :
    Tab × TMState :=
  let cnt := s.tabIdCounter + 1
  let id := generateTabId cnt
  let tab : Tab :=
    ⟨id, filePath, getFilename filePath, false, false, false, none,
      content, content, none, none⟩
  let s1 := { s with tabs := s.tabs ++ [tab], tabIdCounter := cnt }
  (tab, activateTab s1 id)

/-- Embeds `createTab(filePath, content = '')`: if a truthy path is already
open, activate and return the existing tab; otherwise create a fresh one. -/
def createTab (s : TMState) (filePath : Option String) (content : String) :
    Tab × TMState :=
  if pathTruthy filePath then
    match findTabByPath s.tabs (filePath.getD "") with
    | some t => (t, activateTab s t.id)
    | none => createTabFresh s filePath content
  else createTabFresh s filePath content

/-- The fresh-tab half of `createTodoTab`: parse the content through the
todo-renderer (advancing its id counter), build a task-board tab whose saved
baseline is the raw JSON string. -/
def createTodoTabFresh (s : TMState) (filePath : Option String)
    (content : String) : Tab × TMState :=
  let cnt := s.tabIdCounter + 1
  let id := generateTabId cnt
  let parsed := parseTodoData s.todoCounter content.data
  let tab : Tab :=
    ⟨id, filePath, getFilename filePath, false, false, true, some parsed.1,
      "", content, none, none⟩
  let s1 :=
    { s with
      tabs := s.tabs ++ [tab],
      tabIdCounter := cnt,
      todoCounter := parsed.2 }
  (tab, activateTab s1 id)

/-- Embeds `createTodoTab(filePath, content = '{"lists":[]}')`: the same
dedup rule as `createTab` (checked before the content is ever parsed). -/
def createTodoTab (s : TMState) (filePath : Option String) (content : String) :
    Tab × TMState :=
  if pathTruthy filePath then
    match findTabByPath s.tabs (filePath.getD "") with
    | some t => (t, activateTab s t.id)
    | none => createTodoTabFresh s filePath content
  else createTodoTabFresh s filePath content

/-- Embeds the change callback installed by `createEditorWrapper`
(lines 258–267): compare the new content against the saved baseline and set
the modified flag accordingly (the auto-save `trigger()` only arms a timer
and is modelled separately). -/
def editOnChange (s : TMState) (tabId : String) (newContent : String) : TMState :=
  updateTab s tabId (fun t =>
    { t with editorContent := newContent, modified := newContent ≠ t.content })

/-- Embeds the moment `performSave` calls the tab's data provider
(`getSaveData()` of the controller built in `createTab` / `createTodoTab`):
the content to be written is captured from the live tab. -/
def autoSaveStart (s : TMState) (tabId : String) : TMState :=
  updateTab s tabId (fun t =>
    let captured : String :=
      if t.isTodo then
        match t.todoData with
        | some d => String.mk (serializeTodoData d)
        | none => ""
      else t.editorContent
    { t with pendingSave := some captured })

/-- Embeds a successful completion of that save: the captured content reaches
disk, then the controller's `onSaveSuccess` callback runs — it re-reads the
CURRENT content (`tab.content = getEditorContent(tab.editorView)` for text
tabs, `serializeTodoData(tab.todoData)` for task-board tabs) as the new
baseline and unconditionally clears the modified flag. -/
def autoSaveSuccess (s : TMState) (tabId : String) : TMState :=
  updateTab s tabId (fun t =>
    { t with
      diskContent := t.pendingSave,
      pendingSave := none,
      content :=
        (if t.isTodo then
          match t.todoData with
          | some d => String.mk (serializeTodoData d)
          | none => ""
        else t.editorContent),
      modified := false })

/-- Embeds `toggleReadOnly(tabId)`: no-op for unknown ids and task-board
tabs; otherwise flips the flag (indicator/preview handling elided). -/
def toggleReadOnly (s : TMState) (tabId : String) : TMState :=
  match s.tabs.find? (fun t => t.id = tabId) with
  | none => s
  | some t =>
    if t.isTodo then s
    else updateTab s tabId (fun t2 => { t2 with readOnly := !t2.readOnly })

structure SessionData where
  files : List String
  readOnlyFiles : List String
  activeIndex : Int
  fontSize : Nat
  deriving DecidableEq

/-- Embeds `getSessionData()` (lines 723–728): `files` are the truthy paths
of all tabs in order, `readOnlyFiles` the truthy paths of read-only tabs, and
`activeIndex` is `Math.max(0, tabs.findIndex(t => t.id === activeTabId))` —
an index into the FULL tab list (−1 when nothing matches, then clamped). -/
def getSessionData (s : TMState) : SessionData :=
  let files := (s.tabs.filter (fun t => pathTruthy t.filePath)).filterMap (·.filePath)
  let readOnlyFiles :=
    (s.tabs.filter (fun t => pathTruthy t.filePath && t.readOnly)).filterMap (·.filePath)
  let idx : Int :=
    match s.tabs.findIdx? (fun t => some t.id = s.activeTabId) with
    | some i => (i : Int)
    | none => -1
  ⟨files, readOnlyFiles, max 0 idx, s.currentFontSize⟩

/-- The result object of the host's `save-file-as` handler. -/
structure SaveAsResult where
  success : Bool
  canceled : Bool
  filePath : Option String
  deriving DecidableEq

/-- Embeds `saveActiveTabAs()`: no-op without an active tab; on a successful
dialog result carrying a truthy path, the active tab adopts that path and
derived title, the serialized content becomes the new baseline and the
modified flag clears.  No dedup check is performed against other open tabs. -/
def saveActiveTabAs (s : TMState) (result : SaveAsResult) : TMState :=
  match s.activeTabId with
  | none => s
  | some tid =>
    match s.tabs.find? (fun t => t.id = tid) with
    | none => s
    | some tab =>
      let content :=
        if tab.isTodo then
          match tab.todoData with
          | some d => String.mk (serializeTodoData d)
          | none => ""
        else tab.editorContent
      if result.success && pathTruthy result.filePath then
        updateTab s tid (fun t =>
          { t with
            filePath := result.filePath,
            title := getFilename result.filePath,
            content := content,
            modified := false,
            diskContent := some content })
      else s

/-- The uniqueness invariant of §3 of the specification: no two distinct tabs
carry the same truthy file path. -/
def pathAtMostOne (tabs : List Tab) : Prop :=
  tabs.Pairwise (fun a b => pathTruthy a.filePath → a.filePath ≠ b.filePath)

/-! ## Auto-save controller (`createAutoSave` of `src/renderer/renderer.js`)

The controller's closures (`debounceTimer`, `retryTimer`) and the host's
`setTimeout` / `clearTimeout` are modelled as a discrete-event simulation over
virtual milliseconds; `performSave`'s effect on the outside world (IPC write,
success/error callbacks, retry arming) is modelled by `performSaveEffects`.
-/

/-- `AUTOSAVE_DELAY` (ms). -/
def AUTOSAVE_DELAY : Nat := 2000

/-- `RETRY_DELAY` (ms). -/
def RETRY_DELAY : Nat := 5000

/-- Outcome of the awaited `window.electronAPI.saveFile` call. -/
inductive SaveResult where
  | ok : SaveResult
  | fail (msg : String) : SaveResult
  | thrown (msg : String) : SaveResult
  deriving DecidableEq

/-- Observable effects of one `performSave()` invocation. -/
structure SaveEffects where
  /-- The `(path, content)` actually handed to `saveFile`, if any. -/
  wrote : Option (String × String)
  /-- Number of `onSaveSuccess` invocations. -/
  successCalls : Nat
  /-- Number of `onSaveError` invocations. -/
  errorCalls : Nat
  /-- Whether a retry timer was armed. -/
  retryArmed : Bool
  deriving DecidableEq

/-- Embeds `performSave()` (renderer.js lines 550–567): fetch
`{filePath, content}` from the provider; if the provider returned nothing or
a falsy path, return without writing and without invoking either callback;
otherwise write and dispatch on the result (success callback, or error
callback plus a retry timer). -/
def performSaveEffects (data : Option (Option String × String))
    (res : SaveResult) : SaveEffects :=
  match data with
  | none => ⟨none, 0, 0, false⟩
  | some (fp, content) =>
    if pathTruthy fp then
      match res with
      | .ok => ⟨some (fp.getD "", content), 1, 0, false⟩
      | .fail _ => ⟨none, 0, 1, true⟩
      | .thrown _ => ⟨none, 0, 1, true⟩
    else ⟨none, 0, 0, false⟩

/-- Embeds `saveNow()`: cancel pending timers (no observable effect), then
`performSave()`. -/
def saveNowEffects (data : Option (Option String × String))
    (res : SaveResult) : SaveEffects :=
  performSaveEffects data res

/-- External events applied to one auto-save controller. -/
inductive AsEvent where
  | trig : AsEvent
  | now : AsEvent
  | cancelEv : AsEvent
  deriving DecidableEq

/-- Timer state of one controller plus the record of `performSave`
invocation times. -/
structure AsSim where
  deb : Option Nat
  ret : Option Nat
  attempts : List Nat
  deriving DecidableEq

/-- Embeds `cancel()`: clear both timers. -/
def cancelTimers (st : AsSim) : AsSim :=
  { st with deb := none, ret := none }

/-- One `performSave()` at virtual time `t`: record the attempt; a falsy-path
provider returns immediately; a failing save arms the retry timer. -/
def performSaveSim (hasPath ok : Bool) (t : Nat) (st : AsSim) : AsSim :=
  let st1 := { st with attempts := st.attempts ++ [t] }
  if !hasPath then st1
  else if ok then st1
  else { st1 with ret := some (t + RETRY_DELAY) }

/-- Fire every pending timer due at or before `upTo`, in time order
(the single-threaded event loop runs due callbacks before later ones). -/
def fireDue (hasPath ok : Bool) (upTo : Nat) : Nat → AsSim → AsSim
  | 0, st => st
  | fuel + 1, st =>
    match st.deb, st.ret with
    | some d, none =>
      if d ≤ upTo then
        fireDue hasPath ok upTo fuel (performSaveSim hasPath ok d { st with deb := none })
      else st
    | none, some r =>
      if r ≤ upTo then
        fireDue hasPath ok upTo fuel (performSaveSim hasPath ok r { st with ret := none })
      else st
    | some d, some r =>
      -- unreachable: each scheduling point first cancels the other timer
      if d ≤ r then
        if d ≤ upTo then
          fireDue hasPath ok upTo fuel (performSaveSim hasPath ok d { st with deb := none })
        else st
      else
        if r ≤ upTo then
          fireDue hasPath ok upTo fuel (performSaveSim hasPath ok r { st with ret := none })
        else st
    | none, none => st

/-- Apply one external event at time `t`.  `trigger()` first runs `cancel()`
and then arms a fresh debounce timer; `saveNow()` cancels and saves at once;
`cancel()` only clears. -/
def applyAsEvent (hasPath ok : Bool) (t : Nat) (e : AsEvent) (st : AsSim) : AsSim :=
  match e with
  | .trig => { cancelTimers st with deb := some (t + AUTOSAVE_DELAY) }
  | .now => performSaveSim hasPath ok t (cancelTimers st)
  | .cancelEv => cancelTimers st

/-- Run a chronological event list, firing due timers before each event and
letting remaining timers fire up to the horizon afterwards. -/
def runAsEvents (hasPath ok : Bool) (horizon : Nat) :
    List (Nat × AsEvent) → AsSim → AsSim
  | [], st => fireDue hasPath ok horizon (horizon + 1) st
  | (t, e) :: rest, st =>
    runAsEvents hasPath ok horizon rest
      (applyAsEvent hasPath ok t e (fireDue hasPath ok t (horizon + 1) st))

/-- A whole controller run from the idle state. -/
def runAutoSave (hasPath ok : Bool) (events : List (Nat × AsEvent))
    (horizon : Nat) : AsSim :=
  runAsEvents hasPath ok horizon events ⟨none, none, []⟩

/-! ## Bridge surface (`preload.js`, embedded from `src/unnamed/part_004`)

The host's outbound one-way channels (every
`mainWindow.webContents.send(name, ...)` in the main process), the channels
for which the bridge's `electronAPI` object exposes a callback-registration
function (`ipcRenderer.on(name, ...)` inside `contextBridge.exposeInMainWorld`),
and the channels whose registration functions `renderer.js` actually calls. -/

def outboundChannels : List String :=
  ["file-opened", "new-file", "save-file", "save-file-as", "close-tab",
   "editor-command", "zoom", "toggle-word-wrap", "toggle-line-numbers",
   "toggle-read-only", "theme-changed", "request-session-data",
   "restore-active-tab", "restore-font-size", "restore-read-only",
   "show-notification"]

def bridgeCallbackChannels : List String :=
  ["theme-changed", "file-opened", "new-file", "save-file", "save-file-as",
   "close-tab", "editor-command", "zoom", "toggle-word-wrap",
   "toggle-line-numbers", "request-session-data", "restore-active-tab",
   "restore-font-size", "show-notification"]

def rendererRegisteredChannels : List String :=
  ["theme-changed", "file-opened", "new-file", "save-file", "save-file-as",
   "close-tab", "editor-command", "zoom", "toggle-word-wrap",
   "toggle-line-numbers", "toggle-read-only", "request-session-data",
   "restore-active-tab", "restore-font-size", "restore-read-only",
   "show-notification"]

/-! ## Theorems -/

/-- Helper: `activateTab` never changes the tab list. -/
theorem activateTab_tabs (s : TMState) (id : String) :
    (activateTab s id).tabs = s.tabs := by
  unfold activateTab
  split <;> rfl

/-- Helper: `activateTab` never changes the todo id counter. -/
theorem activateTab_todoCounter (s : TMState) (id : String) :
    (activateTab s id).todoCounter = s.todoCounter := by
  unfold activateTab
  split <;> rfl

/-- C4: the host coordinator sends sixteen outbound one-way channels and
`renderer.js` registers callbacks for all sixteen, but the bridge object built
by the preload script exposes callback-registration functions for only
fourteen of them: `toggle-read-only` and `restore-read-only` have no
`onToggleReadOnly` / `onRestoreReadOnly` entry in
`contextBridge.exposeInMainWorld`, although `renderer.js` calls both.  The
claim's function-for-function correspondence fails at exactly these two
channels. -/
theorem C4_bridge_missing_readonly_registrations :
    "toggle-read-only" ∈ outboundChannels ∧
    "restore-read-only" ∈ outboundChannels ∧
    "toggle-read-only" ∈ rendererRegisteredChannels ∧
    "restore-read-only" ∈ rendererRegisteredChannels ∧
    "toggle-read-only" ∉ bridgeCallbackChannels ∧
    "restore-read-only" ∉ bridgeCallbackChannels ∧
    (∀ c ∈ bridgeCallbackChannels, c ∈ outboundChannels) := by
  decide

/-- C2: evaluation of `getSessionData` at the claim's own scenario — three
tabs `[untitled, A, B]` with B active (and read-only).  `files` and
`readOnlyFiles` are as the claim states, but `activeIndex` is `2`, the active
tab's index within the FULL tab list (`tabs.findIndex`), not `1`, its index
within the path-bearing subset that the session's `files` array actually
stores and that session restore indexes into. -/
theorem C2_getSessionData_activeIndex_full_list :
    (let sA := (createTab (initialTM 0) none "").2
     let sB := (createTab sA (some "/a.md") "x").2
     let r := createTab sB (some "/b.md") "y"
     let s := toggleReadOnly r.2 r.1.id
     getSessionData s = ⟨["/a.md", "/b.md"], ["/b.md"], 2, 15⟩) := by
  decide

/-- C3: evaluation of the modified-flag machinery at the failing interleaving.
Plain edits behave as the claim states (baseline `"A"`, edit to `"B"` sets
modified, edit back clears it).  But when an edit happens while a save is in
flight, the completed save's callback sets the baseline to the CURRENT editor
content (never written to disk) and unconditionally clears the modified flag:
after `edit "B"; save starts (captures "B"); edit "C"; save completes`, the
tab reports `modified = false` although the last content actually written is
`"B"` and the editor holds `"C"`. -/
theorem C3_modified_flag_after_async_save :
    (let r := createTab (initialTM 0) (some "/a.md") "A"
     let sB := editOnChange r.2 r.1.id "B"
     (sB.tabs.map Tab.modified = [true]) ∧
     ((editOnChange sB r.1.id "A").tabs.map Tab.modified = [false]) ∧
     (let s := autoSaveSuccess (editOnChange (autoSaveStart sB r.1.id) r.1.id "C") r.1.id
      s.tabs.map (fun tb => (tb.modified, tb.diskContent, tb.editorContent, tb.content)) =
        [(false, some "B", "C", "C")])) := by
  decide

/-- C9: a save attempt whose data provider yields no truthy file path (an
untitled document) performs no write and invokes neither the success nor the
failure callback, both when `performSave` is reached from the debounce timer
and when it is reached through `saveNow`. -/
theorem C9_untitled_never_autosaved :
    ∀ (data : Option (Option String × String)) (res : SaveResult),
      (match data with
       | none => True
       | some (fp, _) => pathTruthy fp = false) →
      performSaveEffects data res = ⟨none, 0, 0, false⟩ ∧
      saveNowEffects data res = ⟨none, 0, 0, false⟩ := by
  intro data res h
  match data with
  | none => exact ⟨rfl, rfl⟩
  | some (fp, content) =>
    simp only [performSaveEffects, saveNowEffects, h]
    exact ⟨rfl, rfl⟩

/-- Witness for C9 at a concrete pathless provider. -/
theorem C9_untitled_never_autosaved_witness :
    performSaveEffects (some (none, "hello")) .ok = ⟨none, 0, 0, false⟩ ∧
    saveNowEffects (some (none, "hello")) .ok = ⟨none, 0, 0, false⟩ :=
  C9_untitled_never_autosaved (some (none, "hello")) .ok (by decide)

/-- C10: the per-path dedup of `createTab` / `createTodoTab` is kind-agnostic.
For any state in which some tab `t` (of either kind) is the dedup hit for path
`p`, `createTodoTab p content` activates and returns exactly `t` (its
`isTodo` flag untouched), creates nothing, and never parses `content` (the
todo id counter is unchanged); symmetrically `createTab p content` returns an
existing task-board tab unchanged. -/
theorem C10_dedup_kind_agnostic :
    ∀ (s : TMState) (p : String) (c c2 : String) (t : Tab),
      p ≠ "" → findTabByPath s.tabs p = some t →
      createTodoTab s (some p) c = (t, activateTab s t.id) ∧
      createTab s (some p) c2 = (t, activateTab s t.id) ∧
      (createTodoTab s (some p) c).1.isTodo = t.isTodo ∧
      (createTodoTab s (some p) c).2.tabs = s.tabs ∧
      (createTodoTab s (some p) c).2.todoCounter = s.todoCounter := by
  intro s p c c2 t hp hfind
  have htr : pathTruthy (some p) = true := by
    simp [pathTruthy, hp]
  have h1 : createTodoTab s (some p) c = (t, activateTab s t.id) := by
    unfold createTodoTab
    simp [htr, Option.getD, hfind]
  have h2 : createTab s (some p) c2 = (t, activateTab s t.id) := by
    unfold createTab
    simp [htr, Option.getD, hfind]
  refine ⟨h1, h2, ?_, ?_, ?_⟩
  · rw [h1]
  · rw [h1]; exact activateTab_tabs s t.id
  · rw [h1]; exact activateTab_todoCounter s t.id

/-- Witness for C10: a plain text tab open at `/a.json`; `createTodoTab` on
the same path returns that very tab, still a text tab, without a new tab and
without consuming a todo identifier. -/
theorem C10_dedup_kind_agnostic_witness :
    (let r := createTab (initialTM 5) (some "/a.json") "plain"
     createTodoTab r.2 (some "/a.json") "\x7b\"lists\":[\x7b\x7d]\x7d" =
       (r.1, activateTab r.2 r.1.id) ∧
     createTab r.2 (some "/a.json") "again" = (r.1, activateTab r.2 r.1.id) ∧
     (createTodoTab r.2 (some "/a.json") "\x7b\"lists\":[\x7b\x7d]\x7d").1.isTodo = r.1.isTodo ∧
     (createTodoTab r.2 (some "/a.json") "\x7b\"lists\":[\x7b\x7d]\x7d").2.tabs = r.2.tabs ∧
     (createTodoTab r.2 (some "/a.json") "\x7b\"lists\":[\x7b\x7d]\x7d").2.todoCounter =
       r.2.todoCounter) :=
  C10_dedup_kind_agnostic
    (createTab (initialTM 5) (some "/a.json") "plain").2 "/a.json"
    "\x7b\"lists\":[\x7b\x7d]\x7d" "again"
    (createTab (initialTM 5) (some "/a.json") "plain").1
    (by decide) (by decide)

/-- C5 counterexample: inline code-span contents ARE reprocessed by the later
bold rule.  For the input `` `**x**` `` the claim predicts the literal
`<code>**x**</code>`; the code produces `<code><strong>x</strong></code>` —
the bold substitution re-matched inside the markup emitted by the earlier
code-span rule. -/
theorem C5_code_span_reprocessed :
    renderInline "\x60**x**\x60".data = "<code><strong>x</strong></code>".data ∧
    renderInline "\x60**x**\x60".data ≠ "<code>**x**</code>".data := by
  decide

/-- C5 (amended): the code-span rule itself runs before the conflicting rules
and emits its contents HTML-escaped and verbatim (third conjunct), and
escaped entities inside code spans survive the whole pipeline (second
conjunct); but the later substitutions operate on the emitted markup text, so
delimiters inside a code span are re-matched — `` `**x**` `` renders as bold
markup inside the code element, not as literal asterisks. -/
theorem C5_code_span_amended :
    renderInline "\x60**x**\x60".data = "<code><strong>x</strong></code>".data ∧
    renderInline "\x60<b>\x60".data = "<code>&lt;b&gt;</code>".data ∧
    codeSpans (escapeHtml "\x60**x**\x60".data) = "<code>**x**</code>".data := by
  decide

/-- Helper for C1: one iteration of the block loop on the line `"  > x"`
dispatches to the blockquote rule (the trimmed line starts with `>`), but
`parseBlockquote` matches `/^>\s?/` against the raw line, collects zero quote
lines, and hands back the unchanged index — so the loop re-runs at the same
position with one more block accumulated. -/
theorem mdLoop_indented_bq_step (f : Nat) (blocks : List (List Char)) :
    mdLoop (f + 1) ["  > x".data] 0 blocks =
      match mdLoop f [[]] 0 [] with
      | none => none
      | some innerBlocks =>
        mdLoop f ["  > x".data] 0
          (blocks ++
            ["<blockquote>".data ++ joinNl innerBlocks ++ "</blockquote>".data]) := by
  rfl

/-- Helper for C1: the loop therefore never terminates, whatever the fuel. -/
theorem mdLoop_indented_bq_none :
    ∀ (fuel : Nat) (blocks : List (List Char)),
      mdLoop fuel ["  > x".data] 0 blocks = none := by
  intro fuel
  induction fuel with
  | zero => intro blocks; rfl
  | succ f ih =>
    intro blocks
    rw [mdLoop_indented_bq_step]
    cases h : mdLoop f [[]] 0 [] with
    | none => rfl
    | some ib => exact ih _

/-- C1: `renderMarkdown` does NOT terminate on every input.  On a line with
leading whitespace before the `>` marker (here `"  > x"`) the dispatch tests
the TRIMMED line (first conjunct) and selects the blockquote rule, but
`parseBlockquote`'s `/^>\s?/` runs against the RAW line and fails (second
conjunct), so the rule consumes zero source lines, returns `endIndex = i - 1`,
and the loop resumes at the same index forever: the fuel-indexed embedding
returns `none` for every fuel bound (third conjunct), exhibiting the
infinite loop. -/
theorem C1_renderMarkdown_loops_on_indented_blockquote :
    startsWithCh ">".data (trimChars "  > x".data) = true ∧
    bqLineTest "  > x".data = false ∧
    ∀ fuel : Nat, renderMarkdownF fuel "  > x".data = none := by
  refine ⟨by decide, by decide, ?_⟩
  intro fuel
  unfold renderMarkdownF
  rw [show splitLinesCh "  > x".data = ["  > x".data] from rfl,
    mdLoop_indented_bq_none fuel []]
  rfl

/-- Helper: with no pending timers, `fireDue` is the identity. -/
theorem fireDue_idle (hp ok : Bool) (upTo fuel : Nat) (att : List Nat) :
    fireDue hp ok upTo fuel ⟨none, none, att⟩ = ⟨none, none, att⟩ := by
  cases fuel <;> rfl

/-- Helper: a pending debounce timer that is not yet due does not fire. -/
theorem fireDue_deb_not_due (hp ok : Bool) (upTo fuel d : Nat) (att : List Nat)
    (h : ¬ (d ≤ upTo)) :
    fireDue hp ok upTo fuel ⟨some d, none, att⟩ = ⟨some d, none, att⟩ := by
  cases fuel with
  | zero => rfl
  | succ f => simp [fireDue, h]

/-- Helper: a due debounce timer fires one successful save attempt. -/
theorem fireDue_deb_due (upTo fuel d : Nat) (att : List Nat) (h : d ≤ upTo) :
    fireDue true true upTo (fuel + 1) ⟨some d, none, att⟩ =
      ⟨none, none, att ++ [d]⟩ := by
  simp [fireDue, h, performSaveSim, fireDue_idle]

/-- C8: the debounce resets on every trigger.  Two `trigger()` calls at times
`t1 ≤ t2` with `t2` within the 2000 ms window produce exactly one save
attempt, performed at `t2 + 2000` — the second trigger's `cancel()` cleared
the first debounce timer before arming its own. -/
theorem C8_autosave_debounce_reset :
    ∀ t1 t2 : Nat, t1 ≤ t2 → t2 < t1 + AUTOSAVE_DELAY →
      (runAutoSave true true [(t1, .trig), (t2, .trig)] (t2 + AUTOSAVE_DELAY)).attempts =
        [t2 + AUTOSAVE_DELAY] := by
  intro t1 t2 h12 hlt
  simp only [runAutoSave, runAsEvents]
  rw [fireDue_idle]
  rw [show applyAsEvent true true t1 .trig ⟨none, none, []⟩ =
      ⟨some (t1 + AUTOSAVE_DELAY), none, []⟩ from rfl]
  rw [fireDue_deb_not_due true true t2 (t2 + AUTOSAVE_DELAY + 1)
    (t1 + AUTOSAVE_DELAY) [] (by omega)]
  rw [show applyAsEvent true true t2 .trig ⟨some (t1 + AUTOSAVE_DELAY), none, []⟩ =
      ⟨some (t2 + AUTOSAVE_DELAY), none, []⟩ from rfl]
  rw [show t2 + AUTOSAVE_DELAY + 1 = (t2 + AUTOSAVE_DELAY) + 1 from rfl,
    fireDue_deb_due (t2 + AUTOSAVE_DELAY) (t2 + AUTOSAVE_DELAY)
      (t2 + AUTOSAVE_DELAY) [] (Nat.le_refl _)]
  rfl

/-- Witness for C8 at `t1 = 0`, `t2 = 1000`: one attempt at 3000 ms. -/
theorem C8_autosave_debounce_reset_witness :
    0 ≤ 1000 ∧ 1000 < 0 + AUTOSAVE_DELAY ∧
    (runAutoSave true true [(0, .trig), (1000, .trig)] (1000 + AUTOSAVE_DELAY)).attempts =
      [1000 + AUTOSAVE_DELAY] :=
  ⟨by decide, by decide,
    C8_autosave_debounce_reset 0 1000 (by decide) (by decide)⟩

/-- Helper: appending one tab whose truthy path clashes with no existing tab
preserves path uniqueness. -/
theorem pathAtMostOne_append (tabs : List Tab) (tab : Tab)
    (h : pathAtMostOne tabs)
    (hnew : ∀ a ∈ tabs, pathTruthy a.filePath → a.filePath ≠ tab.filePath) :
    pathAtMostOne (tabs ++ [tab]) := by
  unfold pathAtMostOne at *
  rw [List.pairwise_append]
  refine ⟨h, List.pairwise_singleton _ _, ?_⟩
  intro a ha b hb
  rw [List.mem_singleton] at hb
  subst hb
  exact hnew a ha

/-- Helper: a truthy optional path is `some` of its `getD ""`. -/
theorem pathTruthy_getD (fp : Option String) (h : pathTruthy fp = true) :
    fp = some (fp.getD "") := by
  cases fp with
  | none => simp [pathTruthy] at h
  | some p => rfl

/-- C7 (amended): at-most-one-tab-per-path is guaranteed at creation:
`createTab` and `createTodoTab` on an already-open truthy path activate and
return the existing tab (first conjunct) and both preserve the uniqueness
invariant (second conjunct); opening the same fresh path twice yields the
same tab identity with no duplicate (third conjunct).  (`SaveActiveTabAs`
does not preserve the invariant — see the counterexample.) -/
theorem C7_create_dedup_amended :
    (∀ (s : TMState) (p c : String) (t : Tab), p ≠ "" →
       findTabByPath s.tabs p = some t →
       createTab s (some p) c = (t, activateTab s t.id) ∧
       createTodoTab s (some p) c = (t, activateTab s t.id) ∧
       (createTab s (some p) c).2.tabs = s.tabs) ∧
    (∀ (s : TMState) (fp : Option String) (c : String),
       pathAtMostOne s.tabs →
       pathAtMostOne ((createTab s fp c).2.tabs) ∧
       pathAtMostOne ((createTodoTab s fp c).2.tabs)) ∧
    (∀ (s : TMState) (p c c2 : String), p ≠ "" →
       findTabByPath s.tabs p = none →
       (createTab ((createTab s (some p) c).2) (some p) c2).1 =
         (createTab s (some p) c).1 ∧
       (createTab ((createTab s (some p) c).2) (some p) c2).2.tabs =
         (createTab s (some p) c).2.tabs) := by
  have hdedupT : ∀ (s : TMState) (p c : String) (t : Tab), p ≠ "" →
      findTabByPath s.tabs p = some t →
      createTab s (some p) c = (t, activateTab s t.id) := by
    intro s p c t hp hfind
    have htr : pathTruthy (some p) = true := by simp [pathTruthy, hp]
    unfold createTab
    simp [htr, Option.getD, hfind]
  refine ⟨?_, ?_, ?_⟩
  · intro s p c t hp hfind
    have htr : pathTruthy (some p) = true := by simp [pathTruthy, hp]
    refine ⟨hdedupT s p c t hp hfind, ?_, ?_⟩
    · unfold createTodoTab
      simp [htr, Option.getD, hfind]
    · rw [hdedupT s p c t hp hfind]
      exact activateTab_tabs s t.id
  · intro s fp c h
    have hfresh : ∀ tb : Tab, tb.filePath = fp →
        (pathTruthy fp = false ∨ findTabByPath s.tabs (fp.getD "") = none) →
        pathAtMostOne (s.tabs ++ [tb]) := by
      intro tb htb hcase
      refine pathAtMostOne_append s.tabs tb h ?_
      intro a ha htra heq
      rw [htb] at heq
      cases hcase with
      | inl hfalse =>
        rw [heq] at htra
        rw [htra] at hfalse
        exact Bool.true_eq_false.mp hfalse
      | inr hnone =>
        have htr2 : pathTruthy fp = true := heq ▸ htra
        have hfp := pathTruthy_getD fp htr2
        have h3 : a.filePath = some (fp.getD "") := by rw [heq]; exact hfp
        exact (List.find?_eq_none.mp hnone a ha) (decide_eq_true h3)
    constructor
    · unfold createTab
      split
      · rename_i htr
        cases hfind : findTabByPath s.tabs (fp.getD "") with
        | some t =>
          simp only [hfind]
          rw [activateTab_tabs]
          exact h
        | none =>
          simp only [hfind]
          unfold createTabFresh
          rw [activateTab_tabs]
          exact hfresh _ rfl (Or.inr hfind)
      · unfold createTabFresh
        rename_i htr
        rw [activateTab_tabs]
        exact hfresh _ rfl (Or.inl (Bool.not_eq_true _ ▸ Bool.of_not_eq_true htr))
    · unfold createTodoTab
      split
      · rename_i htr
        cases hfind : findTabByPath s.tabs (fp.getD "") with
        | some t =>
          simp only [hfind]
          rw [activateTab_tabs]
          exact h
        | none =>
          simp only [hfind]
          unfold createTodoTabFresh
          rw [activateTab_tabs]
          exact hfresh _ rfl (Or.inr hfind)
      · unfold createTodoTabFresh
        rename_i htr
        rw [activateTab_tabs]
        exact hfresh _ rfl (Or.inl (Bool.not_eq_true _ ▸ Bool.of_not_eq_true htr))
  · intro s p c c2 hp hnone
    have htr : pathTruthy (some p) = true := by simp [pathTruthy, hp]
    have h1 : createTab s (some p) c = createTabFresh s (some p) c := by
      unfold createTab
      simp [htr, Option.getD, hnone]
    have htabs : (createTab s (some p) c).2.tabs =
        s.tabs ++ [(createTab s (some p) c).1] := by
      rw [h1]
      unfold createTabFresh
      rw [activateTab_tabs]
    have hfp : (createTab s (some p) c).1.filePath = some p := by
      rw [h1]; rfl
    have hfind2 : findTabByPath ((createTab s (some p) c).2.tabs) p =
        some ((createTab s (some p) c).1) := by
      rw [htabs]
      unfold findTabByPath at *
      rw [List.find?_append, hnone]
      simp [List.find?, hfp]
    have := hdedupT ((createTab s (some p) c).2) p c2 ((createTab s (some p) c).1)
      hp hfind2
    rw [this]
    exact ⟨rfl, activateTab_tabs _ _⟩

/-- Witness for C7 at concrete inputs: a fresh state, `/p.md` opened twice —
one tab, same identity — and the uniqueness invariant preserved. -/
theorem C7_create_dedup_amended_witness :
    ("/p.md" : String) ≠ "" ∧
    findTabByPath (initialTM 0).tabs "/p.md" = none ∧
    pathAtMostOne (initialTM 0).tabs ∧
    ((createTab ((createTab (initialTM 0) (some "/p.md") "c1").2) (some "/p.md") "c2").1 =
      (createTab (initialTM 0) (some "/p.md") "c1").1 ∧
     (createTab ((createTab (initialTM 0) (some "/p.md") "c2").2) (some "/p.md") "c2").2.tabs =
       (createTab (initialTM 0) (some "/p.md") "c2").2.tabs) :=
  ⟨by decide, by decide, List.Pairwise.nil,
    (C7_create_dedup_amended.2.2 (initialTM 0) "/p.md" "c1" "c2" (by decide) (by decide)).1,
    (C7_create_dedup_amended.2.2 (initialTM 0) "/p.md" "c2" "c2" (by decide) (by decide)).2⟩

/-- C7 counterexample: the uniqueness invariant is NOT preserved by every
tab-manager operation.  From a state satisfying it (a tab at `/n.md` plus an
active untitled tab), `saveActiveTabAs` with a dialog result naming the
already-open `/n.md` adopts that path without any dedup check — afterwards
two distinct tabs carry the path `/n.md`. -/
theorem C7_saveAs_breaks_path_uniqueness :
    (let r1 := createTab (initialTM 0) (some "/n.md") "x"
     let r2 := createTab r1.2 none "y"
     let s := saveActiveTabAs r2.2 ⟨true, false, some "/n.md"⟩
     ((r2.2.tabs.filter (fun t => t.filePath = some "/n.md")).length = 1 ∧
      (s.tabs.filter (fun t => t.filePath = some "/n.md")).length = 2 ∧
      (s.tabs.map Tab.id).Nodup)) := by
  decide

/-! ### Round-trip machinery for the task-board claims -/

theorem wsOnly_nil : wsOnly [] := by
  intro c hc
  cases hc

theorem wsOnly_append {a b : List Char} (ha : wsOnly a) (hb : wsOnly b) :
    wsOnly (a ++ b) := by
  intro c hc
  rcases List.mem_append.mp hc with h | h
  · exact ha c h
  · exact hb c h

theorem wsOnly_indent (n : Nat) : wsOnly (indentChars n) := by
  intro c hc
  rw [indentChars, List.mem_replicate] at hc
  rw [hc.2]
  rfl

theorem wsOnly_nl : wsOnly ['\n'] := by
  intro c hc
  rw [List.mem_singleton] at hc
  rw [hc]
  rfl

theorem wsOnly_sp : wsOnly [' '] := by
  intro c hc
  rw [List.mem_singleton] at hc
  rw [hc]
  rfl

theorem skipWs_ws_append {w : List Char} (hw : wsOnly w) (l : List Char) :
    skipWs (w ++ l) = skipWs l := by
  induction w with
  | nil => rfl
  | cons c cs ih =>
    have hc : isJsonWs c = true := hw c (List.mem_cons_self c cs)
    have hcs : wsOnly cs := fun x hx => hw x (List.mem_cons_of_mem c hx)
    simp only [List.cons_append, skipWs, List.dropWhile, hc]
    exact ih hcs

theorem skipWs_not_ws {c : Char} (h : isJsonWs c = false) (l : List Char) :
    skipWs (c :: l) = c :: l := by
  simp only [skipWs, List.dropWhile, h]

theorem char_toNat_cases {c : Char} {d : Char} (h : c.toNat ≠ d.toNat) : c ≠ d := by
  intro heq
  exact h (congrArg Char.toNat heq)

theorem digit_facts {c : Char} (h : isDigitCh c = true) :
    isJsonWs c = false ∧ c ≠ 'n' ∧ c ≠ 't' ∧ c ≠ 'f' ∧ c ≠ '"' ∧
      c ≠ '[' ∧ c ≠ '\x7b' ∧ c ≠ ']' ∧ c ≠ '-' := by
  simp only [isDigitCh, Bool.and_eq_true, decide_eq_true_eq] at h
  have hne : ∀ d : Char, c.toNat ≠ d.toNat → c ≠ d := fun d => char_toNat_cases
  refine ⟨?_, ?_, ?_, ?_, ?_, ?_, ?_, ?_, ?_⟩
  · simp only [isJsonWs, Bool.or_eq_false_iff, decide_eq_false_iff_not]
    refine ⟨⟨⟨?_, ?_⟩, ?_⟩, ?_⟩ <;> (intro heq; rw [heq] at h; revert h; decide)
  · exact hne _ (by have hv : ('n' : Char).toNat = 110 := rfl; omega)
  · exact hne _ (by have hv : ('t' : Char).toNat = 116 := rfl; omega)
  · exact hne _ (by have hv : ('f' : Char).toNat = 102 := rfl; omega)
  · exact hne _ (by have hv : ('"' : Char).toNat = 34 := rfl; omega)
  · exact hne _ (by have hv : ('[' : Char).toNat = 91 := rfl; omega)
  · exact hne _ (by have hv : ('\x7b' : Char).toNat = 123 := rfl; omega)
  · exact hne _ (by have hv : (']' : Char).toNat = 93 := rfl; omega)
  · exact hne _ (by have hv : ('-' : Char).toNat = 45 := rfl; omega)

theorem takeWhile_append_all {p : Char → Bool} {xs : List Char} (ys : List Char)
    (h : ∀ x ∈ xs, p x = true)
    (hy : ys = [] ∨ p (ys.headD ' ') = false) :
    (xs ++ ys).takeWhile p = xs ∧ (xs ++ ys).dropWhile p = ys := by
  induction xs with
  | nil =>
    rcases hy with h1 | h1
    · subst h1; exact ⟨rfl, rfl⟩
    · cases ys with
      | nil => exact ⟨rfl, rfl⟩
      | cons y ys2 =>
        simp only [List.headD_cons] at h1
        simp [List.takeWhile, List.dropWhile, h1]
  | cons x xs2 ih =>
    have hx : p x = true := h x (List.mem_cons_self x xs2)
    have hxs : ∀ a ∈ xs2, p a = true := fun a ha => h a (List.mem_cons_of_mem x ha)
    have := ih hxs
    simp [List.takeWhile, List.dropWhile, hx, this.1, this.2]

theorem digitCh_is_digit (k : Nat) : isDigitCh (digitCh k) = true := by
  unfold digitCh
  split <;> decide

theorem dval_digitCh {k : Nat} (h : k < 10) : (digitCh k).toNat - 48 = k := by
  interval_cases k <;> decide

theorem digitsToNat_go (acc : Nat) (xs ys : List Char) :
    digitsToNat acc (xs ++ ys) = digitsToNat (digitsToNat acc xs) ys := by
  induction xs generalizing acc with
  | nil => rfl
  | cons x xs2 ih =>
    show digitsToNat (acc * 10 + (x.toNat - 48)) (xs2 ++ ys) = _
    exact ih (acc * 10 + (x.toNat - 48))

theorem natToCharsAux_all_digits :
    ∀ (fuel n : Nat), ∀ c ∈ natToCharsAux fuel n, isDigitCh c = true := by
  intro fuel
  induction fuel with
  | zero => intro n c hc; cases hc
  | succ f ih =>
    intro n c hc
    unfold natToCharsAux at hc
    by_cases h : n < 10
    · rw [if_pos h] at hc
      rw [List.mem_singleton] at hc
      rw [hc]; exact digitCh_is_digit n
    · rw [if_neg h] at hc
      rcases List.mem_append.mp hc with h2 | h2
      · exact ih (n / 10) c h2
      · rw [List.mem_singleton] at h2
        rw [h2]; exact digitCh_is_digit (n % 10)

theorem natToCharsAux_ne_nil (fuel n : Nat) (h : 0 < fuel) :
    natToCharsAux fuel n ≠ [] := by
  cases fuel with
  | zero => omega
  | succ f =>
    unfold natToCharsAux
    by_cases h2 : n < 10
    · simp [h2]
    · simp [h2]

theorem natToCharsAux_val :
    ∀ (fuel n : Nat), n < fuel → digitsToNat 0 (natToCharsAux fuel n) = n := by
  intro fuel
  induction fuel with
  | zero => intro n h; omega
  | succ f ih =>
    intro n h
    unfold natToCharsAux
    by_cases h2 : n < 10
    · rw [if_pos h2]
      show (0 * 10 + ((digitCh n).toNat - 48) : Nat) = n
      rw [dval_digitCh h2]
      omega
    · rw [if_neg h2]
      rw [digitsToNat_go]
      have hdiv : n / 10 < f := by
        have := Nat.div_lt_self (by omega : 0 < n) (by omega : 1 < 10)
        omega
      rw [ih (n / 10) hdiv]
      show (n / 10) * 10 + ((digitCh (n % 10)).toNat - 48) = n
      have hm : (digitCh (n % 10)).toNat - 48 = n % 10 :=
        dval_digitCh (Nat.mod_lt n (by omega))
      have hge : 48 ≤ (digitCh (n % 10)).toNat := by
        have := digitCh_is_digit (n % 10)
        simp only [isDigitCh, Bool.and_eq_true, decide_eq_true_eq] at this
        exact this.1
      omega

theorem natToCharsAux_head {fuel n : Nat} (hf : n < fuel) (hn : 0 < n) :
    (natToCharsAux fuel n).headD ' ' ≠ '0' := by
  induction fuel generalizing n with
  | zero => omega
  | succ f ih =>
    unfold natToCharsAux
    by_cases h2 : n < 10
    · rw [if_pos h2]
      interval_cases n <;> decide
    · rw [if_neg h2]
      have hnz : natToCharsAux f (n / 10) ≠ [] := by
        apply natToCharsAux_ne_nil
        have := Nat.div_lt_self (by omega : 0 < n) (by omega : 1 < 10)
        omega
      have hdiv : n / 10 < f := by
        have := Nat.div_lt_self (by omega : 0 < n) (by omega : 1 < 10)
        omega
      have hpos : 0 < n / 10 := by
        have := Nat.div_le_div_right (c := 10) (by omega : 10 ≤ n)
        simpa using this
      cases hx : natToCharsAux f (n / 10) with
      | nil => exact absurd hx hnz
      | cons a t =>
        have := ih hdiv hpos
        rw [hx] at this
        simpa using this

theorem restOk_headD {rest : List Char} (hr : restOk rest) :
    rest = [] ∨ isDigitCh (rest.headD ' ') = false := by
  cases rest with
  | nil => exact Or.inl rfl
  | cons c t => exact Or.inr hr

theorem parseNatPart_natToChars (n : Nat) (rest : List Char) (hr : restOk rest) :
    parseNatPart (natToChars n ++ rest) = some (n, rest) := by
  have hall := fun c hc => natToCharsAux_all_digits (n + 1) n c hc
  have htw := takeWhile_append_all rest hall (restOk_headD hr)
  unfold parseNatPart
  rw [show natToChars n = natToCharsAux (n + 1) n from rfl] at *
  rw [htw.1, htw.2]
  by_cases h0 : n = 0
  · subst h0
    simp [natToCharsAux, digitCh]
  · have hne := natToCharsAux_ne_nil (n + 1) n (by omega)
    have hhead := natToCharsAux_head (by omega : n < n + 1) (by omega : 0 < n)
    rw [if_neg hne]
    have hns : natToCharsAux (n + 1) n ≠ ['0'] := by
      intro heq
      rw [heq] at hhead
      exact hhead rfl
    rw [if_neg hns, if_neg hhead]
    rw [natToCharsAux_val (n + 1) n (by omega)]

theorem parseNumber_intToChars (n : Int) (rest : List Char) (hr : restOk rest) :
    parseNumber (intToChars n ++ rest) = some (n, rest) := by
  cases n with
  | ofNat m =>
    show parseNumber (natToChars m ++ rest) = _
    have hne := natToCharsAux_ne_nil (m + 1) m (by omega)
    cases hx : natToChars m with
    | nil => exact absurd hx hne
    | cons a t =>
      have ha : isDigitCh a = true := by
        have := natToCharsAux_all_digits (m + 1) m a
        rw [show natToCharsAux (m + 1) m = natToChars m from rfl, hx] at this
        exact this (List.mem_cons_self a t)
      have hnm : a ≠ '-' := (digit_facts ha).2.2.2.2.2.2.2.2
      unfold parseNumber
      simp only [List.cons_append, if_neg hnm]
      rw [show a :: (t ++ rest) = (a :: t) ++ rest from rfl, ← hx]
      rw [parseNatPart_natToChars m rest hr]
      rfl
  | negSucc m =>
    show parseNumber ('-' :: (natToChars (m + 1) ++ rest)) = _
    have hstep : parseNumber ('-' :: (natToChars (m + 1) ++ rest)) =
        match parseNatPart (natToChars (m + 1) ++ rest) with
        | some (n, r) => some (-(n : Int), r)
        | none => none := rfl
    rw [hstep, parseNatPart_natToChars (m + 1) rest hr]
    simp [Int.negSucc_eq]

theorem hexVal_hexDigit {k : Nat} (h : k < 16) : hexVal (hexDigit k) = some k := by
  interval_cases k <;> decide

theorem charOfCode_toNat {c : Char} (h : c.toNat < 0xd800) :
    charOfCode c.toNat = some c := by
  have hv : Nat.isValidChar c.toNat := Or.inl h
  unfold charOfCode
  rw [dif_pos h]
  have h2 := Char.ofNat_toNat c
  unfold Char.ofNat at h2
  rw [dif_pos hv] at h2
  rw [h2]

/-- One unfolding step of the string-body scanner on a cons cell. -/
theorem parseStringBody_cons (c : Char) (tail : List Char) :
    parseStringBody (c :: tail) =
      (if c = '"' then some ([], tail)
       else if c = '\\' then
         (match tail with
          | [] => none
          | e :: rest2 =>
            if e = 'u' then
              match rest2 with
              | h1 :: h2 :: h3 :: h4 :: rest3 =>
                (match hexVal h1, hexVal h2, hexVal h3, hexVal h4 with
                 | some a, some b, some cc, some d =>
                   (match charOfCode (((a * 16 + b) * 16 + cc) * 16 + d) with
                    | some ch =>
                      (match parseStringBody rest3 with
                       | some (s, r) => some (ch :: s, r)
                       | none => none)
                    | none => none)
                 | _, _, _, _ => none)
              | _ => none
            else
              match escCharVal e with
              | some ch =>
                (match parseStringBody rest2 with
                 | some (s, r) => some (ch :: s, r)
                 | none => none)
              | none => none)
       else if c.toNat < 32 then none
       else
         match parseStringBody tail with
         | some (s, r) => some (c :: s, r)
         | none => none) := by
  cases tail with
  | nil => rw [parseStringBody.eq_def]
  | cons e r2 => rw [parseStringBody.eq_def]

theorem parseStringBody_escape (s : List Char) (rest : List Char) :
    parseStringBody (escapeJsonStr s ++ '"' :: rest) = some (s, rest) := by
  induction s with
  | nil =>
    show parseStringBody ('"' :: rest) = some ([], rest)
    rw [parseStringBody_cons]
    rfl
  | cons c s2 ih =>
    show parseStringBody ((escapeJsonChar c ++ escapeJsonStr s2) ++ '"' :: rest) = _
    rw [List.append_assoc]
    by_cases h1 : c = '"'
    · subst h1
      have hstep : parseStringBody ('\\' :: '"' :: (escapeJsonStr s2 ++ '"' :: rest)) =
          match parseStringBody (escapeJsonStr s2 ++ '"' :: rest) with
          | some (s, r) => some ('"' :: s, r)
          | none => none := by rw [parseStringBody_cons]; rfl
      show parseStringBody ('\\' :: '"' :: (escapeJsonStr s2 ++ '"' :: rest)) = _
      rw [hstep, ih]
    · by_cases h2 : c = '\\'
      · subst h2
        have hstep : parseStringBody ('\\' :: '\\' :: (escapeJsonStr s2 ++ '"' :: rest)) =
            match parseStringBody (escapeJsonStr s2 ++ '"' :: rest) with
            | some (s, r) => some ('\\' :: s, r)
            | none => none := by rw [parseStringBody_cons]; rfl
        show parseStringBody ('\\' :: '\\' :: (escapeJsonStr s2 ++ '"' :: rest)) = _
        rw [hstep, ih]
      · by_cases h3 : c = '\x08'
        · subst h3
          have hstep : parseStringBody ('\\' :: 'b' :: (escapeJsonStr s2 ++ '"' :: rest)) =
              match parseStringBody (escapeJsonStr s2 ++ '"' :: rest) with
              | some (s, r) => some ('\x08' :: s, r)
              | none => none := by rw [parseStringBody_cons]; rfl
          show parseStringBody ('\\' :: 'b' :: (escapeJsonStr s2 ++ '"' :: rest)) = _
          rw [hstep, ih]
        · by_cases h4 : c = '\x0c'
          · subst h4
            have hstep : parseStringBody ('\\' :: 'f' :: (escapeJsonStr s2 ++ '"' :: rest)) =
                match parseStringBody (escapeJsonStr s2 ++ '"' :: rest) with
                | some (s, r) => some ('\x0c' :: s, r)
                | none => none := by rw [parseStringBody_cons]; rfl
            show parseStringBody ('\\' :: 'f' :: (escapeJsonStr s2 ++ '"' :: rest)) = _
            rw [hstep, ih]
          · by_cases h5 : c = '\n'
            · subst h5
              have hstep : parseStringBody ('\\' :: 'n' :: (escapeJsonStr s2 ++ '"' :: rest)) =
                  match parseStringBody (escapeJsonStr s2 ++ '"' :: rest) with
                  | some (s, r) => some ('\n' :: s, r)
                  | none => none := by rw [parseStringBody_cons]; rfl
              show parseStringBody ('\\' :: 'n' :: (escapeJsonStr s2 ++ '"' :: rest)) = _
              rw [hstep, ih]
            · by_cases h6 : c = '\r'
              · subst h6
                have hstep : parseStringBody ('\\' :: 'r' :: (escapeJsonStr s2 ++ '"' :: rest)) =
                    match parseStringBody (escapeJsonStr s2 ++ '"' :: rest) with
                    | some (s, r) => some ('\r' :: s, r)
                    | none => none := by rw [parseStringBody_cons]; rfl
                show parseStringBody ('\\' :: 'r' :: (escapeJsonStr s2 ++ '"' :: rest)) = _
                rw [hstep, ih]
              · by_cases h7 : c = '\t'
                · subst h7
                  have hstep : parseStringBody ('\\' :: 't' :: (escapeJsonStr s2 ++ '"' :: rest)) =
                      match parseStringBody (escapeJsonStr s2 ++ '"' :: rest) with
                      | some (s, r) => some ('\t' :: s, r)
                      | none => none := by rw [parseStringBody_cons]; rfl
                  show parseStringBody ('\\' :: 't' :: (escapeJsonStr s2 ++ '"' :: rest)) = _
                  rw [hstep, ih]
                · by_cases hctl : c.toNat < 32
                  · have hid : escapeJsonChar c = ['\\', 'u', '0', '0',
                        hexDigit (c.toNat / 16), hexDigit (c.toNat % 16)] := by
                      unfold escapeJsonChar
                      rw [if_neg h1, if_neg h2, if_neg h3, if_neg h4, if_neg h5,
                        if_neg h6, if_neg h7, if_pos hctl]
                    rw [hid]
                    have hstep : parseStringBody ('\\' :: 'u' :: '0' :: '0' ::
                        hexDigit (c.toNat / 16) :: hexDigit (c.toNat % 16) ::
                        (escapeJsonStr s2 ++ '"' :: rest)) =
                        match hexVal '0', hexVal '0', hexVal (hexDigit (c.toNat / 16)),
                            hexVal (hexDigit (c.toNat % 16)) with
                        | some a, some b, some cc, some d =>
                          (match charOfCode (((a * 16 + b) * 16 + cc) * 16 + d) with
                           | some ch =>
                             (match parseStringBody (escapeJsonStr s2 ++ '"' :: rest) with
                              | some (s, r) => some (ch :: s, r)
                              | none => none)
                           | none => none)
                        | _, _, _, _ => none := by
                      rw [parseStringBody_cons]; rfl
                    show parseStringBody ('\\' :: 'u' :: '0' :: '0' ::
                        hexDigit (c.toNat / 16) :: hexDigit (c.toNat % 16) ::
                        (escapeJsonStr s2 ++ '"' :: rest)) = some (c :: s2, rest)
                    rw [hstep, show hexVal '0' = some 0 from rfl,
                      hexVal_hexDigit (by omega : c.toNat / 16 < 16),
                      hexVal_hexDigit (by omega : c.toNat % 16 < 16)]
                    have hred : (match (some 0 : Option Nat), (some 0 : Option Nat),
                        (some (c.toNat / 16) : Option Nat), (some (c.toNat % 16) : Option Nat) with
                        | some a, some b, some cc, some d =>
                          (match charOfCode (((a * 16 + b) * 16 + cc) * 16 + d) with
                           | some ch =>
                             (match parseStringBody (escapeJsonStr s2 ++ '"' :: rest) with
                              | some (s, r) => some (ch :: s, r)
                              | none => none)
                           | none => none)
                        | _, _, _, _ => none) =
                        match charOfCode (((0 * 16 + 0) * 16 + c.toNat / 16) * 16 + c.toNat % 16) with
                        | some ch =>
                          (match parseStringBody (escapeJsonStr s2 ++ '"' :: rest) with
                           | some (s, r) => some (ch :: s, r)
                           | none => none)
                        | none => none := rfl
                    rw [hred,
                      show ((0 * 16 + 0) * 16 + c.toNat / 16) * 16 + c.toNat % 16 = c.toNat from by omega,
                      charOfCode_toNat (by omega : c.toNat < 0xd800), ih]
                  · have hid : escapeJsonChar c = [c] := by
                      unfold escapeJsonChar
                      rw [if_neg h1, if_neg h2, if_neg h3, if_neg h4, if_neg h5,
                        if_neg h6, if_neg h7, if_neg hctl]
                    rw [hid]
                    have hstep : parseStringBody (c :: (escapeJsonStr s2 ++ '"' :: rest)) =
                        match parseStringBody (escapeJsonStr s2 ++ '"' :: rest) with
                        | some (s, r) => some (c :: s, r)
                        | none => none := by
                      rw [parseStringBody_cons, if_neg h1, if_neg h2, if_neg hctl]
                    show parseStringBody (c :: (escapeJsonStr s2 ++ '"' :: rest)) = _
                    rw [hstep, ih]

/-- Every printed JSON value is nonempty, starts with a non-whitespace
character, and never starts with `]`. -/
theorem prettyV_head_spec (v : Json) (ind : Nat) :
    ∃ c t, prettyV ind v = c :: t ∧ isJsonWs c = false ∧ c ≠ ']' := by
  cases v with
  | jnull => exact ⟨'n', _, rfl, by decide, by decide⟩
  | jbool b => cases b with
    | true => exact ⟨'t', _, rfl, by decide, by decide⟩
    | false => exact ⟨'f', _, rfl, by decide, by decide⟩
  | jnum n =>
    cases n with
    | ofNat m =>
      have hne := natToCharsAux_ne_nil (m + 1) m (by omega)
      cases hx : natToChars m with
      | nil => exact absurd hx hne
      | cons a t =>
        have ha : isDigitCh a = true := by
          have := natToCharsAux_all_digits (m + 1) m a
          rw [show natToCharsAux (m + 1) m = natToChars m from rfl, hx] at this
          exact this (List.mem_cons_self a t)
        have hf := digit_facts ha
        exact ⟨a, t, hx, hf.1, hf.2.2.2.2.2.2.2.1⟩
    | negSucc m => exact ⟨'-', _, rfl, by decide, by decide⟩
  | jstr s => exact ⟨'"', _, rfl, by decide, by decide⟩
  | jarr es props =>
    cases es with
    | nil => exact ⟨'[', _, rfl, by decide, by decide⟩
    | cons e tl => exact ⟨'[', _, rfl, by decide, by decide⟩
  | jobj fs =>
    cases fs with
    | nil => exact ⟨'\x7b', _, rfl, by decide, by decide⟩
    | cons k v2 tl => exact ⟨'\x7b', _, rfl, by decide, by decide⟩

/-- One step of `parseValue` once the significant head character is known. -/
theorem parseValue_step (fuel : Nat) {cs : List Char} {c : Char} {r : List Char}
    (h : skipWs cs = c :: r) :
    parseValue (fuel + 1) cs =
      (if c = 'n' then
        match r with
        | 'u' :: 'l' :: 'l' :: r2 => some (.jnull, r2)
        | _ => none
      else if c = 't' then
        match r with
        | 'r' :: 'u' :: 'e' :: r2 => some (.jbool true, r2)
        | _ => none
      else if c = 'f' then
        match r with
        | 'a' :: 'l' :: 's' :: 'e' :: r2 => some (.jbool false, r2)
        | _ => none
      else if c = '"' then
        match parseStringBody r with
        | some (s, r2) => some (.jstr s, r2)
        | none => none
      else if c = '[' then
        if headIs ']' (skipWs r) then some (.jarr .nil .nil, (skipWs r).tail)
        else
          match parseElems fuel r with
          | some (es, r2) => some (.jarr es .nil, r2)
          | none => none
      else if c = '\x7b' then
        if headIs '\x7d' (skipWs r) then some (.jobj .nil, (skipWs r).tail)
        else
          match parseFields fuel r with
          | some (fs, r2) => some (.jobj fs, r2)
          | none => none
      else
        match parseNumber (c :: r) with
        | some (n, r2) => some (.jnum n, r2)
        | none => none) := by
  simp only [parseValue, h]

/-- One step of `parseElems` once the first element's parse is known. -/
theorem parseElems_step (fuel : Nat) {cs : List Char} {v : Json} {r1 : List Char}
    (h : parseValue fuel cs = some (v, r1)) :
    parseElems (fuel + 1) cs =
      (match skipWs r1 with
       | ',' :: rest2 =>
         (match parseElems fuel rest2 with
          | some (es, r) => some (.cons v es, r)
          | none => none)
       | ']' :: rest2 => some (JsonList.cons v .nil, rest2)
       | _ => none) := by
  simp only [parseElems, h]

/-- One step of `parseFields` once the printed key is identified. -/
theorem parseFields_step (fuel : Nat) {cs : List Char} {k r1 : List Char}
    (h : skipWs cs = '"' :: (escapeJsonStr k ++ ('"' :: r1))) :
    parseFields (fuel + 1) cs =
      (match skipWs r1 with
       | ':' :: rest3 =>
         (match parseValue fuel rest3 with
          | none => none
          | some (v, rest4) =>
            match skipWs rest4 with
            | ',' :: rest5 =>
              (match parseFields fuel rest5 with
               | some (fs, r) => some (.cons k v fs, r)
               | none => none)
            | '\x7d' :: rest5 => some (JsonFields.cons k v .nil, rest5)
            | _ => none)
       | _ => none) := by
  simp only [parseFields, h, parseStringBody_escape]

theorem ws_not_digit {c : Char} (h : isJsonWs c = true) : isDigitCh c = false := by
  revert h
  simp only [isJsonWs, Bool.or_eq_true, decide_eq_true_eq]
  intro h
  rcases h with ((h | h) | h) | h <;> (subst h; decide)

theorem restOk_cons {c : Char} (h : isDigitCh c = false) (r : List Char) :
    restOk (c :: r) := h

theorem restOk_ws_cons {w : List Char} (hw : wsOnly w) {c : Char}
    (hc : isDigitCh c = false) (r : List Char) : restOk (w ++ (c :: r)) := by
  cases w with
  | nil => exact hc
  | cons x xs =>
    exact ws_not_digit (hw x (List.mem_cons_self x xs))

theorem wsOnly_nl_indent (n : Nat) : wsOnly ('\n' :: indentChars n) := by
  intro c hc
  rcases List.mem_cons.mp hc with h | h
  · subst h; decide
  · exact wsOnly_indent n c h

theorem jfuelV_pos (v : Json) : 1 ≤ jfuelV v := by
  cases v <;> simp [jfuelV]

theorem prettyItems_decomp (ind : Nat) (e : Json) (tl : JsonList) :
    ∃ z, prettyItems ind (.cons e tl) = indentChars ind ++ (prettyV ind e ++ z) := by
  cases tl with
  | nil => exact ⟨[], by simp [prettyItems]⟩
  | cons e2 tl2 =>
    exact ⟨',' :: '\n' :: prettyItems ind (.cons e2 tl2), by simp [prettyItems]⟩

/-- The printed form of a number starts with a digit or a minus sign. -/
theorem intToChars_head (n : Int) :
    ∃ c t, intToChars n = c :: t ∧ (isDigitCh c = true ∨ c = '-') := by
  cases n with
  | ofNat m =>
    cases hx : natToChars m with
    | nil => exact absurd hx (natToCharsAux_ne_nil (m + 1) m (by omega))
    | cons a t =>
      refine ⟨a, t, hx, Or.inl ?_⟩
      have := natToCharsAux_all_digits (m + 1) m a
      rw [show natToCharsAux (m + 1) m = natToChars m from rfl, hx] at this
      exact this (List.mem_cons_self a t)
  | negSucc m => exact ⟨'-', natToChars (m + 1), rfl, Or.inr rfl⟩

/-- Round trip of the printer through the parser: a printed pure value,
preceded by whitespace and followed by anything a value cannot absorb, parses
back to exactly that value (mutually for values, array items and object
fields, by induction on the parser fuel). -/
theorem parse_pretty (fuel : Nat) :
    (∀ v ind ws rest, wsOnly ws → jpureV v = true → restOk rest → jfuelV v ≤ fuel →
      parseValue fuel (ws ++ (prettyV ind v ++ rest)) = some (v, rest)) ∧
    (∀ e tl ind ws wsC rest cs, wsOnly ws → wsOnly wsC →
      jpureL (JsonList.cons e tl) = true → jfuelL (JsonList.cons e tl) ≤ fuel →
      cs = ws ++ (prettyItems ind (JsonList.cons e tl) ++ (wsC ++ (']' :: rest))) →
      parseElems fuel cs = some (JsonList.cons e tl, rest)) ∧
    (∀ k v tl ind ws wsC rest cs, wsOnly ws → wsOnly wsC →
      jpureF (JsonFields.cons k v tl) = true → jfuelF (JsonFields.cons k v tl) ≤ fuel →
      cs = ws ++ (prettyFields ind (JsonFields.cons k v tl) ++ (wsC ++ ('\x7d' :: rest))) →
      parseFields fuel cs = some (JsonFields.cons k v tl, rest)) := by
  induction fuel with
  | zero =>
    refine ⟨?_, ?_, ?_⟩
    · intro v ind ws rest _ _ _ hf
      exact absurd hf (by have := jfuelV_pos v; omega)
    · intro e tl ind ws wsC rest cs _ _ _ hf _
      exact absurd hf (by simp only [jfuelL]; omega)
    · intro k v tl ind ws wsC rest cs _ _ _ hf _
      exact absurd hf (by simp only [jfuelF]; omega)
  | succ fuel ih =>
    obtain ⟨ih1, ih2, ih3⟩ := ih
    refine ⟨?_, ?_, ?_⟩
    · -- values
      intro v ind ws rest hws hp hr hf
      cases v with
      | jnull =>
        have h1 : skipWs (ws ++ (prettyV ind .jnull ++ rest)) =
            'n' :: ('u' :: 'l' :: 'l' :: rest) := by
          rw [skipWs_ws_append hws]
          simp only [prettyV, List.cons_append, List.nil_append]
          rw [skipWs_not_ws (by decide)]
        rw [parseValue_step fuel h1]
        rfl
      | jbool b =>
        cases b with
        | true =>
          have h1 : skipWs (ws ++ (prettyV ind (.jbool true) ++ rest)) =
              't' :: ('r' :: 'u' :: 'e' :: rest) := by
            rw [skipWs_ws_append hws]
            simp only [prettyV, List.cons_append, List.nil_append]
            rw [skipWs_not_ws (by decide)]
          rw [parseValue_step fuel h1]
          rfl
        | false =>
          have h1 : skipWs (ws ++ (prettyV ind (.jbool false) ++ rest)) =
              'f' :: ('a' :: 'l' :: 's' :: 'e' :: rest) := by
            rw [skipWs_ws_append hws]
            simp only [prettyV, List.cons_append, List.nil_append]
            rw [skipWs_not_ws (by decide)]
          rw [parseValue_step fuel h1]
          rfl
      | jnum n =>
        obtain ⟨c, t, hx, hcd⟩ := intToChars_head n
        have hfacts : isJsonWs c = false ∧ c ≠ 'n' ∧ c ≠ 't' ∧ c ≠ 'f' ∧ c ≠ '"' ∧
            c ≠ '[' ∧ c ≠ '\x7b' := by
          rcases hcd with h | h
          · have d := digit_facts h
            exact ⟨d.1, d.2.1, d.2.2.1, d.2.2.2.1, d.2.2.2.2.1, d.2.2.2.2.2.1,
              d.2.2.2.2.2.2.1⟩
          · subst h
            exact ⟨by decide, by decide, by decide, by decide, by decide,
              by decide, by decide⟩
        have h1 : skipWs (ws ++ (prettyV ind (.jnum n) ++ rest)) = c :: (t ++ rest) := by
          rw [skipWs_ws_append hws]
          simp only [prettyV]
          rw [hx, List.cons_append, skipWs_not_ws hfacts.1]
        rw [parseValue_step fuel h1, if_neg hfacts.2.1, if_neg hfacts.2.2.1,
          if_neg hfacts.2.2.2.1, if_neg hfacts.2.2.2.2.1, if_neg hfacts.2.2.2.2.2.1,
          if_neg hfacts.2.2.2.2.2.2,
          show c :: (t ++ rest) = intToChars n ++ rest from by rw [hx, List.cons_append],
          parseNumber_intToChars n rest hr]
      | jstr s =>
        have h1 : skipWs (ws ++ (prettyV ind (.jstr s) ++ rest)) =
            '"' :: (escapeJsonStr s ++ ('"' :: rest)) := by
          rw [skipWs_ws_append hws]
          simp only [prettyV, quoteStr, List.cons_append, List.append_assoc,
            List.nil_append]
          rw [skipWs_not_ws (by decide)]
        rw [parseValue_step fuel h1, parseStringBody_escape]
        rfl
      | jarr es props =>
        have hprops : props = JsonFields.nil := by
          cases props with
          | nil => rfl
          | cons a b t => exact absurd hp (by simp [jpureV])
        subst hprops
        have hL : jpureL es = true := by simpa [jpureV] using hp
        cases es with
        | nil =>
          have h1 : skipWs (ws ++ (prettyV ind (.jarr .nil .nil) ++ rest)) =
              '[' :: (']' :: rest) := by
            rw [skipWs_ws_append hws]
            simp only [prettyV, List.cons_append, List.nil_append]
            rw [skipWs_not_ws (by decide)]
          rw [parseValue_step fuel h1]
          rfl
        | cons e tl =>
          obtain ⟨z, hz⟩ := prettyItems_decomp (ind + 2) e tl
          obtain ⟨c0, t0, hc0, hc0ws, hc0ne⟩ := prettyV_head_spec e (ind + 2)
          have h1 : skipWs (ws ++ (prettyV ind (.jarr (.cons e tl) .nil) ++ rest)) =
              '[' :: ('\n' :: (prettyItems (ind + 2) (.cons e tl) ++
                ('\n' :: (indentChars ind ++ (']' :: rest))))) := by
            rw [skipWs_ws_append hws]
            simp only [prettyV, List.cons_append, List.append_assoc, List.nil_append]
            rw [skipWs_not_ws (by decide)]
          have hh : skipWs ('\n' :: (prettyItems (ind + 2) (.cons e tl) ++
              ('\n' :: (indentChars ind ++ (']' :: rest))))) =
              c0 :: (t0 ++ (z ++ ('\n' :: (indentChars ind ++ (']' :: rest))))) := by
            show skipWs (['\n'] ++ (prettyItems (ind + 2) (.cons e tl) ++
              ('\n' :: (indentChars ind ++ (']' :: rest))))) = _
            rw [skipWs_ws_append wsOnly_nl, hz, List.append_assoc,
              skipWs_ws_append (wsOnly_indent (ind + 2)), List.append_assoc, hc0,
              List.cons_append, skipWs_not_ws hc0ws]
          have hhead : headIs ']' (c0 :: (t0 ++ (z ++ ('\n' ::
              (indentChars ind ++ (']' :: rest)))))) = false := by
            simp only [headIs]
            exact decide_eq_false hc0ne
          rw [parseValue_step fuel h1, if_neg (by decide : ¬ ('[' : Char) = 'n'),
            if_neg (by decide : ¬ ('[' : Char) = 't'),
            if_neg (by decide : ¬ ('[' : Char) = 'f'),
            if_neg (by decide : ¬ ('[' : Char) = '"'),
            if_pos (rfl : ('[' : Char) = '['), hh, hhead,
            if_neg (by decide : ¬ (false = true))]
          have hfl : jfuelL (JsonList.cons e tl) ≤ fuel := by
            simp only [jfuelV] at hf; omega
          rw [ih2 e tl (ind + 2) ['\n'] ('\n' :: indentChars ind) rest
            ('\n' :: (prettyItems (ind + 2) (.cons e tl) ++
              ('\n' :: (indentChars ind ++ (']' :: rest)))))
            wsOnly_nl (wsOnly_nl_indent ind) hL hfl rfl]
      | jobj fs =>
        have hF : jpureF fs = true := by simpa [jpureV] using hp
        cases fs with
        | nil =>
          have h1 : skipWs (ws ++ (prettyV ind (.jobj .nil) ++ rest)) =
              '\x7b' :: ('\x7d' :: rest) := by
            rw [skipWs_ws_append hws]
            simp only [prettyV, List.cons_append, List.nil_append]
            rw [skipWs_not_ws (by decide)]
          rw [parseValue_step fuel h1]
          rfl
        | cons k v tl =>
          have h1 : skipWs (ws ++ (prettyV ind (.jobj (.cons k v tl)) ++ rest)) =
              '\x7b' :: ('\n' :: (prettyFields (ind + 2) (.cons k v tl) ++
                ('\n' :: (indentChars ind ++ ('\x7d' :: rest))))) := by
            rw [skipWs_ws_append hws]
            simp only [prettyV, List.cons_append, List.append_assoc, List.nil_append]
            rw [skipWs_not_ws (by decide)]
          have hh : skipWs ('\n' :: (prettyFields (ind + 2) (.cons k v tl) ++
              ('\n' :: (indentChars ind ++ ('\x7d' :: rest))))) =
              '"' :: ((escapeJsonStr k ++ ('"' :: (':' :: (' ' :: (prettyV (ind + 2) v ++
                (match tl with
                 | .nil => '\n' :: (indentChars ind ++ ('\x7d' :: rest))
                 | .cons k2 v2 tl2 => ',' :: ('\n' ::
                     (prettyFields (ind + 2) (.cons k2 v2 tl2) ++
                       ('\n' :: (indentChars ind ++ ('\x7d' :: rest))))))))))))  := by
            show skipWs (['\n'] ++ (prettyFields (ind + 2) (.cons k v tl) ++
              ('\n' :: (indentChars ind ++ ('\x7d' :: rest))))) = _
            rw [skipWs_ws_append wsOnly_nl]
            cases tl with
            | nil =>
              simp only [prettyFields, quoteStr, List.cons_append, List.append_assoc,
                List.nil_append]
              rw [skipWs_ws_append (wsOnly_indent (ind + 2)), skipWs_not_ws (by decide)]
            | cons k2 v2 tl2 =>
              simp only [prettyFields, quoteStr, List.cons_append, List.append_assoc,
                List.nil_append]
              rw [skipWs_ws_append (wsOnly_indent (ind + 2)), skipWs_not_ws (by decide)]
          have hhead : headIs '\x7d' (skipWs ('\n' ::
              (prettyFields (ind + 2) (.cons k v tl) ++
                ('\n' :: (indentChars ind ++ ('\x7d' :: rest)))))) = false := by
            rw [hh]
            simp only [headIs]
            exact decide_eq_false (by decide)
          have hff : jfuelF (JsonFields.cons k v tl) ≤ fuel := by
            simp only [jfuelV] at hf; omega
          rw [parseValue_step fuel h1, if_neg (by decide : ¬ ('\x7b' : Char) = 'n'),
            if_neg (by decide : ¬ ('\x7b' : Char) = 't'),
            if_neg (by decide : ¬ ('\x7b' : Char) = 'f'),
            if_neg (by decide : ¬ ('\x7b' : Char) = '"'),
            if_neg (by decide : ¬ ('\x7b' : Char) = '['),
            if_pos (rfl : ('\x7b' : Char) = '\x7b'), hhead,
            if_neg (by decide : ¬ (false = true))]
          cases tl with
          | nil =>
            rw [ih3 k v .nil (ind + 2) ['\n'] ('\n' :: indentChars ind) rest
              ('\n' :: (prettyFields (ind + 2) (.cons k v .nil) ++
                ('\n' :: (indentChars ind ++ ('\x7d' :: rest)))))
              wsOnly_nl (wsOnly_nl_indent ind) hF hff rfl]
          | cons k2 v2 tl2 =>
            rw [ih3 k v (.cons k2 v2 tl2) (ind + 2) ['\n'] ('\n' :: indentChars ind)
              rest ('\n' :: (prettyFields (ind + 2) (.cons k v (.cons k2 v2 tl2)) ++
                ('\n' :: (indentChars ind ++ ('\x7d' :: rest)))))
              wsOnly_nl (wsOnly_nl_indent ind) hF hff rfl]
    · -- array items
      intro e tl ind ws wsC rest cs hws hwsC hpL hfL hcs
      subst hcs
      have hpe : jpureV e = true := by
        simp only [jpureL, Bool.and_eq_true] at hpL; exact hpL.1
      have hfe : jfuelV e ≤ fuel := by simp only [jfuelL] at hfL; omega
      cases tl with
      | nil =>
        have hv : parseValue fuel (ws ++ (prettyItems ind (JsonList.cons e .nil) ++
            (wsC ++ (']' :: rest)))) = some (e, wsC ++ (']' :: rest)) := by
          rw [show ws ++ (prettyItems ind (JsonList.cons e .nil) ++
              (wsC ++ (']' :: rest))) =
              (ws ++ indentChars ind) ++ (prettyV ind e ++ (wsC ++ (']' :: rest))) from by
            simp [prettyItems, List.append_assoc]]
          exact ih1 e ind (ws ++ indentChars ind) (wsC ++ (']' :: rest))
            (wsOnly_append hws (wsOnly_indent ind)) hpe
            (restOk_ws_cons hwsC (by decide) rest) hfe
        rw [parseElems_step fuel hv, skipWs_ws_append hwsC,
          skipWs_not_ws (by decide : isJsonWs ']' = false)]
        rfl
      | cons e2 tl2 =>
        have hv : parseValue fuel (ws ++ (prettyItems ind (JsonList.cons e
            (JsonList.cons e2 tl2)) ++ (wsC ++ (']' :: rest)))) =
            some (e, ',' :: ('\n' :: (prettyItems ind (JsonList.cons e2 tl2) ++
              (wsC ++ (']' :: rest))))) := by
          rw [show ws ++ (prettyItems ind (JsonList.cons e (JsonList.cons e2 tl2)) ++
              (wsC ++ (']' :: rest))) =
              (ws ++ indentChars ind) ++ (prettyV ind e ++
                (',' :: ('\n' :: (prettyItems ind (JsonList.cons e2 tl2) ++
                  (wsC ++ (']' :: rest)))))) from by
            simp [prettyItems, List.append_assoc]]
          exact ih1 e ind (ws ++ indentChars ind) _
            (wsOnly_append hws (wsOnly_indent ind)) hpe
            (restOk_cons (by decide) _) hfe
        rw [parseElems_step fuel hv,
          skipWs_not_ws (by decide : isJsonWs ',' = false)]
        show (match parseElems fuel ('\n' :: (prettyItems ind (JsonList.cons e2 tl2) ++
            (wsC ++ (']' :: rest)))) with
          | some (es, r) => some (JsonList.cons e es, r)
          | none => none) = some (JsonList.cons e (JsonList.cons e2 tl2), rest)
        have hp2 : jpureL (JsonList.cons e2 tl2) = true := by
          simp only [jpureL, Bool.and_eq_true] at hpL ⊢
          exact hpL.2
        have hf2 : jfuelL (JsonList.cons e2 tl2) ≤ fuel := by
          simp only [jfuelL] at hfL ⊢; omega
        rw [ih2 e2 tl2 ind ['\n'] wsC rest
          ('\n' :: (prettyItems ind (JsonList.cons e2 tl2) ++ (wsC ++ (']' :: rest))))
          wsOnly_nl hwsC hp2 hf2 rfl]
    · -- object fields
      intro k v tl ind ws wsC rest cs hws hwsC hpF hfF hcs
      subst hcs
      have hpv : jpureV v = true := by
        simp only [jpureF, Bool.and_eq_true] at hpF; exact hpF.1
      have hfv : jfuelV v ≤ fuel := by simp only [jfuelF] at hfF; omega
      cases tl with
      | nil =>
        have hq : skipWs (ws ++ (prettyFields ind (JsonFields.cons k v .nil) ++
            (wsC ++ ('\x7d' :: rest)))) =
            '"' :: (escapeJsonStr k ++ ('"' :: (':' :: (' ' :: (prettyV ind v ++
              (wsC ++ ('\x7d' :: rest))))))) := by
          simp only [prettyFields, quoteStr, List.cons_append, List.append_assoc,
            List.nil_append]
          rw [skipWs_ws_append hws, skipWs_ws_append (wsOnly_indent ind),
            skipWs_not_ws (by decide)]
        rw [parseFields_step fuel hq,
          skipWs_not_ws (by decide : isJsonWs ':' = false)]
        show (match parseValue fuel (' ' :: (prettyV ind v ++
            (wsC ++ ('\x7d' :: rest)))) with
          | none => none
          | some (v2, rest4) =>
            match skipWs rest4 with
            | ',' :: rest5 =>
              (match parseFields fuel rest5 with
               | some (fs, r) => some (JsonFields.cons k v2 fs, r)
               | none => none)
            | '\x7d' :: rest5 => some (JsonFields.cons k v2 .nil, rest5)
            | _ => none) = some (JsonFields.cons k v .nil, rest)
        have hv : parseValue fuel (' ' :: (prettyV ind v ++ (wsC ++ ('\x7d' :: rest)))) =
            some (v, wsC ++ ('\x7d' :: rest)) :=
          ih1 v ind [' '] (wsC ++ ('\x7d' :: rest)) wsOnly_sp hpv
            (restOk_ws_cons hwsC (by decide) rest) hfv
        rw [hv]
        show (match skipWs (wsC ++ ('\x7d' :: rest)) with
          | ',' :: rest5 =>
            (match parseFields fuel rest5 with
             | some (fs, r) => some (JsonFields.cons k v fs, r)
             | none => none)
          | '\x7d' :: rest5 => some (JsonFields.cons k v .nil, rest5)
          | _ => none) = some (JsonFields.cons k v .nil, rest)
        rw [skipWs_ws_append hwsC,
          skipWs_not_ws (by decide : isJsonWs '\x7d' = false)]
        rfl
      | cons k2 v2 tl2 =>
        have hq : skipWs (ws ++ (prettyFields ind (JsonFields.cons k v
            (JsonFields.cons k2 v2 tl2)) ++ (wsC ++ ('\x7d' :: rest)))) =
            '"' :: (escapeJsonStr k ++ ('"' :: (':' :: (' ' :: (prettyV ind v ++
              (',' :: ('\n' :: (prettyFields ind (JsonFields.cons k2 v2 tl2) ++
                (wsC ++ ('\x7d' :: rest)))))))))) := by
          simp only [prettyFields, quoteStr, List.cons_append, List.append_assoc,
            List.nil_append]
          rw [skipWs_ws_append hws, skipWs_ws_append (wsOnly_indent ind),
            skipWs_not_ws (by decide)]
        rw [parseFields_step fuel hq,
          skipWs_not_ws (by decide : isJsonWs ':' = false)]
        show (match parseValue fuel (' ' :: (prettyV ind v ++
            (',' :: ('\n' :: (prettyFields ind (JsonFields.cons k2 v2 tl2) ++
              (wsC ++ ('\x7d' :: rest))))))) with
          | none => none
          | some (v3, rest4) =>
            match skipWs rest4 with
            | ',' :: rest5 =>
              (match parseFields fuel rest5 with
               | some (fs, r) => some (JsonFields.cons k v3 fs, r)
               | none => none)
            | '\x7d' :: rest5 => some (JsonFields.cons k v3 .nil, rest5)
            | _ => none) = some (JsonFields.cons k v (JsonFields.cons k2 v2 tl2), rest)
        have hv : parseValue fuel (' ' :: (prettyV ind v ++ (',' :: ('\n' ::
            (prettyFields ind (JsonFields.cons k2 v2 tl2) ++
              (wsC ++ ('\x7d' :: rest))))))) =
            some (v, ',' :: ('\n' :: (prettyFields ind (JsonFields.cons k2 v2 tl2) ++
              (wsC ++ ('\x7d' :: rest))))) :=
          ih1 v ind [' '] _ wsOnly_sp hpv (restOk_cons (by decide) _) hfv
        rw [hv]
        show (match skipWs (',' :: ('\n' :: (prettyFields ind
            (JsonFields.cons k2 v2 tl2) ++ (wsC ++ ('\x7d' :: rest))))) with
          | ',' :: rest5 =>
            (match parseFields fuel rest5 with
             | some (fs, r) => some (JsonFields.cons k v fs, r)
             | none => none)
          | '\x7d' :: rest5 => some (JsonFields.cons k v .nil, rest5)
          | _ => none) = some (JsonFields.cons k v (JsonFields.cons k2 v2 tl2), rest)
        rw [skipWs_not_ws (by decide : isJsonWs ',' = false)]
        show (match parseFields fuel ('\n' :: (prettyFields ind
            (JsonFields.cons k2 v2 tl2) ++ (wsC ++ ('\x7d' :: rest)))) with
          | some (fs, r) => some (JsonFields.cons k v fs, r)
          | none => none) = some (JsonFields.cons k v (JsonFields.cons k2 v2 tl2), rest)
        have hp2 : jpureF (JsonFields.cons k2 v2 tl2) = true := by
          simp only [jpureF, Bool.and_eq_true] at hpF ⊢
          exact hpF.2
        have hf2 : jfuelF (JsonFields.cons k2 v2 tl2) ≤ fuel := by
          simp only [jfuelF] at hfF ⊢; omega
        rw [ih3 k2 v2 tl2 ind ['\n'] wsC rest
          ('\n' :: (prettyFields ind (JsonFields.cons k2 v2 tl2) ++
            (wsC ++ ('\x7d' :: rest))))
          wsOnly_nl hwsC hp2 hf2 rfl]

mutual
/-- The parser fuel a value needs is at most the length of its printed form. -/
theorem jfuelV_le (v : Json) (ind : Nat) : jfuelV v ≤ (prettyV ind v).length := by
  cases v with
  | jnull => simp [jfuelV, prettyV]
  | jbool b => cases b <;> simp [jfuelV, prettyV]
  | jnum n =>
    obtain ⟨c, t, hx, _⟩ := intToChars_head n
    simp [jfuelV, prettyV, hx]
  | jstr s => simp [jfuelV, prettyV, quoteStr]
  | jarr es props =>
    cases es with
    | nil => simp [jfuelV, jfuelL, prettyV]
    | cons e tl =>
      have h := jfuelL_le (.cons e tl) (ind + 2)
      simp only [jfuelV, prettyV, List.length_cons, List.length_append] at h ⊢
      omega
  | jobj fs =>
    cases fs with
    | nil => simp [jfuelV, jfuelF, prettyV]
    | cons k v tl =>
      have h := jfuelF_le (.cons k v tl) (ind + 2)
      simp only [jfuelV, prettyV, List.length_cons, List.length_append] at h ⊢
      omega

theorem jfuelL_le (l : JsonList) (ind : Nat) :
    jfuelL l ≤ (prettyItems ind l).length + 2 := by
  cases l with
  | nil => simp [jfuelL, prettyItems]
  | cons e tl =>
    cases tl with
    | nil =>
      have h := jfuelV_le e ind
      simp only [jfuelL, prettyItems, List.length_append, indentChars,
        List.length_replicate] at h ⊢
      omega
    | cons e2 tl2 =>
      have h1 := jfuelV_le e ind
      have h2 := jfuelL_le (.cons e2 tl2) ind
      simp only [jfuelL, prettyItems, List.length_append, List.length_cons,
        indentChars, List.length_replicate] at h1 h2 ⊢
      omega

theorem jfuelF_le (f : JsonFields) (ind : Nat) :
    jfuelF f ≤ (prettyFields ind f).length + 2 := by
  cases f with
  | nil => simp [jfuelF, prettyFields]
  | cons k v tl =>
    cases tl with
    | nil =>
      have h := jfuelV_le v ind
      simp only [jfuelF, prettyFields, List.length_append, List.length_cons,
        indentChars, List.length_replicate] at h ⊢
      omega
    | cons k2 v2 tl2 =>
      have h1 := jfuelV_le v ind
      have h2 := jfuelF_le (.cons k2 v2 tl2) ind
      simp only [jfuelF, prettyFields, List.length_append, List.length_cons,
        indentChars, List.length_replicate] at h1 h2 ⊢
      omega
end

/-- `JSON.parse` inverts `JSON.stringify(·, null, 2)` on values without array
expando properties. -/
theorem jsonParseJS_pretty (v : Json) (hp : jpureV v = true) :
    jsonParseJS (prettyV 0 v ++ ['\n']) = some v := by
  have hle : jfuelV v ≤ (prettyV 0 v ++ ['\n']).length + 1 := by
    have h1 := jfuelV_le v 0
    simp only [List.length_append, List.length_cons, List.length_nil]
    omega
  have h2 : parseValue ((prettyV 0 v ++ ['\n']).length + 1) (prettyV 0 v ++ ['\n']) =
      some (v, ['\n']) :=
    (parse_pretty ((prettyV 0 v ++ ['\n']).length + 1)).1 v 0 [] ['\n']
      wsOnly_nil hp (restOk_cons (by decide) []) hle
  unfold jsonParseJS
  rw [h2]
  rfl

/-- Every value built by the parser is free of array expando properties
(`JSON.parse` can only construct plain arrays). -/
theorem parse_pure (fuel : Nat) :
    (∀ cs v r, parseValue fuel cs = some (v, r) → jpureV v = true) ∧
    (∀ cs es r, parseElems fuel cs = some (es, r) → jpureL es = true) ∧
    (∀ cs fs r, parseFields fuel cs = some (fs, r) → jpureF fs = true) := by
  induction fuel with
  | zero =>
    refine ⟨?_, ?_, ?_⟩ <;>
      (intro cs x r h; exact absurd h (by simp [parseValue, parseElems, parseFields]))
  | succ fuel ih =>
    obtain ⟨ih1, ih2, ih3⟩ := ih
    refine ⟨?_, ?_, ?_⟩
    · intro cs v r h
      simp only [parseValue] at h
      split at h
      · exact Option.noConfusion h
      · split at h
        · -- 'n'
          split at h
          · simp only [Option.some.injEq, Prod.mk.injEq] at h
            obtain ⟨h1, h2⟩ := h
            subst h1; rfl
          · exact Option.noConfusion h
        · split at h
          · -- 't'
            split at h
            · simp only [Option.some.injEq, Prod.mk.injEq] at h
              obtain ⟨h1, h2⟩ := h
              subst h1; rfl
            · exact Option.noConfusion h
          · split at h
            · -- 'f'
              split at h
              · simp only [Option.some.injEq, Prod.mk.injEq] at h
                obtain ⟨h1, h2⟩ := h
                subst h1; rfl
              · exact Option.noConfusion h
            · split at h
              · -- '"'
                split at h
                · simp only [Option.some.injEq, Prod.mk.injEq] at h
                  obtain ⟨h1, h2⟩ := h
                  subst h1; rfl
                · exact Option.noConfusion h
              · split at h
                · -- '['
                  split at h
                  · simp only [Option.some.injEq, Prod.mk.injEq] at h
                    obtain ⟨h1, h2⟩ := h
                    subst h1; rfl
                  · split at h
                    next es2 r2 heq =>
                      simp only [Option.some.injEq, Prod.mk.injEq] at h
                      obtain ⟨h1, h2⟩ := h
                      subst h1
                      simp only [jpureV, Bool.and_eq_true]
                      exact ⟨trivial, ih2 _ _ _ heq⟩
                    next heq => exact Option.noConfusion h
                · split at h
                  · -- obj
                    split at h
                    · simp only [Option.some.injEq, Prod.mk.injEq] at h
                      obtain ⟨h1, h2⟩ := h
                      subst h1; rfl
                    · split at h
                      next fs2 r2 heq =>
                        simp only [Option.some.injEq, Prod.mk.injEq] at h
                        obtain ⟨h1, h2⟩ := h
                        subst h1
                        simp only [jpureV]
                        exact ih3 _ _ _ heq
                      next heq => exact Option.noConfusion h
                  · -- number
                    split at h
                    next n2 r2 heq =>
                      simp only [Option.some.injEq, Prod.mk.injEq] at h
                      obtain ⟨h1, h2⟩ := h
                      subst h1; rfl
                    next heq => exact Option.noConfusion h
    · intro cs es r h
      simp only [parseElems] at h
      split at h
      · exact Option.noConfusion h
      next v1 rest1 heq1 =>
        split at h
        · -- comma
          split at h
          next es2 r2 heq2 =>
            simp only [Option.some.injEq, Prod.mk.injEq] at h
            obtain ⟨h1, h2⟩ := h
            subst h1
            simp only [jpureL, Bool.and_eq_true]
            exact ⟨ih1 _ _ _ heq1, ih2 _ _ _ heq2⟩
          next heq2 => exact Option.noConfusion h
        · -- close bracket
          simp only [Option.some.injEq, Prod.mk.injEq] at h
          obtain ⟨h1, h2⟩ := h
          subst h1
          simp only [jpureL, Bool.and_eq_true]
          exact ⟨ih1 _ _ _ heq1, trivial⟩
        · exact Option.noConfusion h
    · intro cs fs r h
      simp only [parseFields] at h
      split at h
      next k1 rest1 heq0 =>
        split at h
        · exact Option.noConfusion h
        next k2 rest2 heqk =>
          split at h
          next rest3 heqc =>
            split at h
            · exact Option.noConfusion h
            next v1 rest4 heqv =>
              split at h
              · -- comma
                split at h
                next fs2 r2 heqf =>
                  simp only [Option.some.injEq, Prod.mk.injEq] at h
                  obtain ⟨h1, h2⟩ := h
                  subst h1
                  simp only [jpureF, Bool.and_eq_true]
                  exact ⟨ih1 _ _ _ heqv, ih3 _ _ _ heqf⟩
                next heqf => exact Option.noConfusion h
              · -- close brace
                simp only [Option.some.injEq, Prod.mk.injEq] at h
                obtain ⟨h1, h2⟩ := h
                subst h1
                simp only [jpureF, Bool.and_eq_true]
                exact ⟨ih1 _ _ _ heqv, trivial⟩
              · exact Option.noConfusion h
          next heqc => exact Option.noConfusion h
      next heq0 => exact Option.noConfusion h

/-- `JSON.parse` results are free of array expando properties. -/
theorem jsonParseJS_pure {content : List Char} {v : Json}
    (h : jsonParseJS content = some v) : jpureV v = true := by
  unfold jsonParseJS at h
  split at h
  next v2 rest heq =>
    split at h
    · simp only [Option.some.injEq] at h
      subst h
      exact (parse_pure _).1 _ _ _ heq
    · exact Option.noConfusion h
  next heq => exact Option.noConfusion h

theorem lookupField_setField_eq (k : List Char) (v : Json) :
    ∀ fs, lookupField k (setField k v fs) = some v
  | .nil => by simp [setField, lookupField]
  | .cons k2 v2 tl => by
    by_cases h : k2 = k
    · simp [setField, lookupField, h]
    · simp [setField, lookupField, h, lookupField_setField_eq k v tl]

theorem lookupField_setField_ne {k k2 : List Char} (h : k2 ≠ k) (v : Json) :
    ∀ fs, lookupField k2 (setField k v fs) = lookupField k2 fs
  | .nil => by
    simp only [setField, lookupField]
    rw [if_neg (fun he => h he.symm)]
  | .cons k3 v3 tl => by
    by_cases h2 : k3 = k
    · have h4 : ¬ k3 = k2 := fun he => h (he ▸ h2)
      simp only [setField, if_pos h2, lookupField, if_neg h4]
    · simp only [setField, if_neg h2, lookupField]
      by_cases h3 : k3 = k2
      · simp [h3]
      · simp [h3, lookupField_setField_ne h v tl]

theorem setField_self {k : List Char} {v : Json} :
    ∀ {fs : JsonFields}, lookupField k fs = some v → setField k v fs = fs
  | .nil, h => by simp [lookupField] at h
  | .cons k2 v2 tl, h => by
    by_cases h2 : k2 = k
    · simp only [lookupField, if_pos h2, Option.some.injEq] at h
      simp only [setField, if_pos h2]
      rw [h]
    · simp only [lookupField, if_neg h2] at h
      simp [setField, if_neg h2, setField_self h]

theorem getPropJS_setPropJS_eq {x : Json} {k : List Char} {val x2 : Json}
    (h : setPropJS x k val = some x2) : getPropJS x2 k = some (some val) := by
  cases x with
  | jnull => simp [setPropJS] at h
  | jbool b => simp [setPropJS] at h
  | jnum n => simp [setPropJS] at h
  | jstr s2 => simp [setPropJS] at h
  | jarr es props =>
    simp only [setPropJS, Option.some.injEq] at h
    subst h
    simp [getPropJS, lookupField_setField_eq]
  | jobj fs =>
    simp only [setPropJS, Option.some.injEq] at h
    subst h
    simp [getPropJS, lookupField_setField_eq]

theorem getPropJS_setPropJS_ne {x : Json} {k : List Char} {val x2 : Json}
    (h : setPropJS x k val = some x2) {k2 : List Char} (hne : k2 ≠ k) :
    getPropJS x2 k2 = getPropJS x k2 := by
  cases x with
  | jnull => simp [setPropJS] at h
  | jbool b => simp [setPropJS] at h
  | jnum n => simp [setPropJS] at h
  | jstr s2 => simp [setPropJS] at h
  | jarr es props =>
    simp only [setPropJS, Option.some.injEq] at h
    subst h
    simp [getPropJS, lookupField_setField_ne hne]
  | jobj fs =>
    simp only [setPropJS, Option.some.injEq] at h
    subst h
    simp [getPropJS, lookupField_setField_ne hne]

theorem readProp_setPropJS_eq {x : Json} {k : List Char} {val x2 : Json}
    (h : setPropJS x k val = some x2) : readProp x2 k = some val := by
  simp [readProp, getPropJS_setPropJS_eq h]

theorem readProp_setPropJS_ne {x : Json} {k : List Char} {val x2 : Json}
    (h : setPropJS x k val = some x2) {k2 : List Char} (hne : k2 ≠ k) :
    readProp x2 k2 = readProp x k2 := by
  simp [readProp, getPropJS_setPropJS_ne h hne]

theorem setPropJS_self {x : Json} {k : List Char} {val : Json}
    (h : getPropJS x k = some (some val)) : setPropJS x k val = some x := by
  cases x with
  | jnull => simp [getPropJS] at h
  | jbool b => simp [getPropJS] at h
  | jnum n => simp [getPropJS] at h
  | jstr s2 => simp [getPropJS] at h
  | jarr es props =>
    simp only [getPropJS, Option.some.injEq] at h
    simp [setPropJS, setField_self h]
  | jobj fs =>
    simp only [getPropJS, Option.some.injEq] at h
    simp [setPropJS, setField_self h]

theorem jpureF_setField {k : List Char} {val : Json} (hv : jpureV val = true) :
    ∀ {fs : JsonFields}, jpureF fs = true → jpureF (setField k val fs) = true
  | .nil, _ => by simp [setField, jpureF, hv]
  | .cons k2 v2 tl, hf => by
    simp only [jpureF, Bool.and_eq_true] at hf
    by_cases h : k2 = k
    · simp [setField, h, jpureF, hv, hf.2]
    · simp [setField, h, jpureF, hf.1, jpureF_setField hv hf.2]

theorem jpureF_lookup {k : List Char} {v : Json} :
    ∀ {fs : JsonFields}, jpureF fs = true → lookupField k fs = some v →
      jpureV v = true
  | .nil, _, h => by simp [lookupField] at h
  | .cons k2 v2 tl, hf, h => by
    simp only [jpureF, Bool.and_eq_true] at hf
    by_cases h2 : k2 = k
    · simp only [lookupField, if_pos h2, Option.some.injEq] at h
      subst h
      exact hf.1
    · simp only [lookupField, if_neg h2] at h
      exact jpureF_lookup hf.2 h

/-- A successful identifier repair yields a truthy id, relates to the input
pointwise, and touches no other property. -/
theorem repairId_facts {x : Json} {c : Nat} {x2 : Json} {c2 : Nat}
    (h : repairId x c = (some x2, c2)) :
    propTruthy (readProp x2 idKey) = true ∧ idRepairedFrom x x2 ∧
      (∀ k2, k2 ≠ idKey → readProp x2 k2 = readProp x k2) := by
  cases x with
  | jnull => simp [repairId, getPropJS] at h
  | jbool b => simp [repairId, getPropJS, propTruthy, uid, setPropJS] at h
  | jnum n => simp [repairId, getPropJS, propTruthy, uid, setPropJS] at h
  | jstr s2 => simp [repairId, getPropJS, propTruthy, uid, setPropJS] at h
  | jarr es props =>
    have hread : readProp (Json.jarr es props) idKey = lookupField idKey props := by
      simp [readProp, getPropJS]
    simp only [repairId, getPropJS] at h
    by_cases ht : propTruthy (lookupField idKey props) = true
    · rw [if_pos ht] at h
      simp only [Prod.mk.injEq, Option.some.injEq] at h
      obtain ⟨h1, h2⟩ := h
      subst h1
      refine ⟨by rw [hread]; exact ht, ⟨fun _ => rfl, fun hf => ?_⟩, fun _ _ => rfl⟩
      rw [hread] at hf
      rw [hf] at ht
      exact absurd ht (by simp)
    · rw [if_neg ht] at h
      simp only [uid, setPropJS, Prod.mk.injEq, Option.some.injEq] at h
      obtain ⟨h1, h2⟩ := h
      subst h1
      have hnew : readProp (Json.jarr es
          (setField idKey (.jstr ('t' :: 'd' :: '-' :: natTo36Aux (c + 1) c)) props))
          idKey = some (.jstr ('t' :: 'd' :: '-' :: natTo36Aux (c + 1) c)) := by
        simp [readProp, getPropJS, lookupField_setField_eq]
      refine ⟨by rw [hnew]; simp [propTruthy, truthy], ⟨fun hf => ?_, fun _ => ?_⟩,
        fun k2 hk2 => ?_⟩
      · rw [hread] at hf
        exact absurd hf ht
      · rw [hnew]
        rfl
      · simp [readProp, getPropJS, lookupField_setField_ne hk2]
  | jobj fs =>
    have hread : readProp (Json.jobj fs) idKey = lookupField idKey fs := by
      simp [readProp, getPropJS]
    simp only [repairId, getPropJS] at h
    by_cases ht : propTruthy (lookupField idKey fs) = true
    · rw [if_pos ht] at h
      simp only [Prod.mk.injEq, Option.some.injEq] at h
      obtain ⟨h1, h2⟩ := h
      subst h1
      refine ⟨by rw [hread]; exact ht, ⟨fun _ => rfl, fun hf => ?_⟩, fun _ _ => rfl⟩
      rw [hread] at hf
      rw [hf] at ht
      exact absurd ht (by simp)
    · rw [if_neg ht] at h
      simp only [uid, setPropJS, Prod.mk.injEq, Option.some.injEq] at h
      obtain ⟨h1, h2⟩ := h
      subst h1
      have hnew : readProp (Json.jobj
          (setField idKey (.jstr ('t' :: 'd' :: '-' :: natTo36Aux (c + 1) c)) fs))
          idKey = some (.jstr ('t' :: 'd' :: '-' :: natTo36Aux (c + 1) c)) := by
        simp [readProp, getPropJS, lookupField_setField_eq]
      refine ⟨by rw [hnew]; simp [propTruthy, truthy], ⟨fun hf => ?_, fun _ => ?_⟩,
        fun k2 hk2 => ?_⟩
      · rw [hread] at hf
        exact absurd hf ht
      · rw [hnew]
        rfl
      · simp [readProp, getPropJS, lookupField_setField_ne hk2]

/-- A value whose id is already truthy is returned unchanged, with the counter
untouched. -/
theorem repairId_id {x : Json} (h : propTruthy (readProp x idKey) = true)
    (c : Nat) : repairId x c = (some x, c) := by
  cases x with
  | jnull => simp [readProp, getPropJS, propTruthy] at h
  | jbool b => simp [readProp, getPropJS, propTruthy] at h
  | jnum n => simp [readProp, getPropJS, propTruthy] at h
  | jstr s2 => simp [readProp, getPropJS, propTruthy] at h
  | jarr es props =>
    have hread : readProp (Json.jarr es props) idKey = lookupField idKey props := by
      simp [readProp, getPropJS]
    rw [hread] at h
    simp [repairId, getPropJS, h]
  | jobj fs =>
    have hread : readProp (Json.jobj fs) idKey = lookupField idKey fs := by
      simp [readProp, getPropJS]
    rw [hread] at h
    simp [repairId, getPropJS, h]

/-- On a plain object, identifier repair keeps the value free of array expando
properties. -/
theorem repairId_pure {x : Json} {c : Nat} {x2 : Json} {c2 : Nat}
    (hp : jpureV x = true) (h : repairId x c = (some x2, c2))
    (hobj : objTaskB x2 = true) : jpureV x2 = true := by
  cases x with
  | jnull => simp [repairId, getPropJS] at h
  | jbool b => simp [repairId, getPropJS, propTruthy, uid, setPropJS] at h
  | jnum n => simp [repairId, getPropJS, propTruthy, uid, setPropJS] at h
  | jstr s2 => simp [repairId, getPropJS, propTruthy, uid, setPropJS] at h
  | jarr es props =>
    simp only [repairId, getPropJS] at h
    by_cases ht : propTruthy (lookupField idKey props) = true
    · rw [if_pos ht] at h
      simp only [Prod.mk.injEq, Option.some.injEq] at h
      obtain ⟨h1, h2⟩ := h
      subst h1
      simp [objTaskB] at hobj
    · rw [if_neg ht] at h
      simp only [uid, setPropJS, Prod.mk.injEq, Option.some.injEq] at h
      obtain ⟨h1, h2⟩ := h
      subst h1
      simp [objTaskB] at hobj
  | jobj fs =>
    simp only [repairId, getPropJS] at h
    by_cases ht : propTruthy (lookupField idKey fs) = true
    · rw [if_pos ht] at h
      simp only [Prod.mk.injEq, Option.some.injEq] at h
      obtain ⟨h1, h2⟩ := h
      subst h1
      exact hp
    · rw [if_neg ht] at h
      simp only [uid, setPropJS, Prod.mk.injEq, Option.some.injEq] at h
      obtain ⟨h1, h2⟩ := h
      subst h1
      show jpureF (setField idKey (.jstr ('t' :: 'd' :: '-' :: natTo36Aux (c + 1) c)) fs) = true
      exact jpureF_setField (by rfl) hp

/-- A successful task-loop repair yields truthy ids, pointwise related to the
input tasks. -/
theorem repairTasks_facts :
    ∀ {ts : JsonList} {c : Nat} {ts2 : JsonList} {c2 : Nat},
      repairTasks ts c = (some ts2, c2) →
      allJL goodTaskB ts2 = true ∧ tasksRepairedFrom ts ts2
  | .nil, c, ts2, c2, h => by
    simp only [repairTasks, Prod.mk.injEq, Option.some.injEq] at h
    obtain ⟨h1, h2⟩ := h
    subst h1
    exact ⟨rfl, trivial⟩
  | .cons t tl, c, ts2, c2, h => by
    simp only [repairTasks] at h
    split at h
    next c3 heq => simp at h
    next t2 c3 heq =>
      split at h
      next tl2 c4 heq2 =>
        simp only [Prod.mk.injEq, Option.some.injEq] at h
        obtain ⟨h1, h2⟩ := h
        subst h1
        have f1 := repairId_facts heq
        have f2 := repairTasks_facts heq2
        exact ⟨by simp [allJL, goodTaskB, f1.1, f2.1], f1.2.1, f2.2⟩
      next c4 heq2 => simp at h

/-- Tasks whose ids are already truthy are returned unchanged, with the
counter untouched. -/
theorem repairTasks_id :
    ∀ {ts : JsonList}, allJL goodTaskB ts = true →
      ∀ c, repairTasks ts c = (some ts, c)
  | .nil, _, c => by simp [repairTasks]
  | .cons t tl, hts, c => by
    simp only [allJL, Bool.and_eq_true] at hts
    simp [repairTasks, repairId_id hts.1, repairTasks_id hts.2]

/-- The task loop keeps pure plain-object tasks pure. -/
theorem repairTasks_pure :
    ∀ {ts : JsonList} {c : Nat} {ts2 : JsonList} {c2 : Nat},
      jpureL ts = true → repairTasks ts c = (some ts2, c2) →
      allJL objTaskB ts2 = true → jpureL ts2 = true
  | .nil, c, ts2, c2, _, h, _ => by
    simp only [repairTasks, Prod.mk.injEq, Option.some.injEq] at h
    obtain ⟨h1, h2⟩ := h
    subst h1
    rfl
  | .cons t tl, c, ts2, c2, hp, h, hobj => by
    simp only [jpureL, Bool.and_eq_true] at hp
    simp only [repairTasks] at h
    split at h
    next c3 heq => simp at h
    next t2 c3 heq =>
      split at h
      next tl2 c4 heq2 =>
        simp only [Prod.mk.injEq, Option.some.injEq] at h
        obtain ⟨h1, h2⟩ := h
        subst h1
        simp only [allJL, Bool.and_eq_true] at hobj
        simp only [jpureL, Bool.and_eq_true]
        exact ⟨repairId_pure hp.1 heq hobj.1, repairTasks_pure hp.2 heq2 hobj.2⟩
      next c4 heq2 => simp at h

theorem setPropJS_kind {x : Json} {k : List Char} {v x2 : Json}
    (h : setPropJS x k v = some x2) : objTaskB x2 = objTaskB x := by
  cases x with
  | jnull => simp [setPropJS] at h
  | jbool b => simp [setPropJS] at h
  | jnum n => simp [setPropJS] at h
  | jstr s2 => simp [setPropJS] at h
  | jarr es props =>
    simp only [setPropJS, Option.some.injEq] at h
    subst h
    rfl
  | jobj fs =>
    simp only [setPropJS, Option.some.injEq] at h
    subst h
    rfl

theorem objListB_is_obj {l : Json} (h : objListB l = true) : objTaskB l = true := by
  cases l with
  | jobj fs => rfl
  | jnull => simp [objListB] at h
  | jbool b => simp [objListB] at h
  | jnum n => simp [objListB] at h
  | jstr s2 => simp [objListB] at h
  | jarr es props => simp [objListB] at h

theorem getPropJS_of_readProp {x : Json} {k : List Char} {v : Json}
    (h : readProp x k = some v) : getPropJS x k = some (some v) := by
  cases x with
  | jnull => simp [readProp, getPropJS] at h
  | jbool b => simp [readProp, getPropJS] at h
  | jnum n => simp [readProp, getPropJS] at h
  | jstr s2 => simp [readProp, getPropJS] at h
  | jarr es props =>
    simp only [readProp, getPropJS] at h
    simp [getPropJS, h]
  | jobj fs =>
    simp only [readProp, getPropJS] at h
    simp [getPropJS, h]

/-- A successful `tasks` repair: other properties untouched, `tasks` ends up
an array of truthy-id tasks, pointwise related to the input (non-arrays
becoming `[]`), and the value's kind is preserved. -/
theorem repairListTasks_facts {l1 : Json} {c1 : Nat} {l3 : Json} {c3 : Nat}
    (h : repairListTasks l1 c1 = (some l3, c3)) :
    (∀ k2, k2 ≠ tasksKey → readProp l3 k2 = readProp l1 k2) ∧
    (∃ ts2 tp2, readProp l3 tasksKey = some (.jarr ts2 tp2) ∧
      allJL goodTaskB ts2 = true) ∧
    (match readProp l1 tasksKey with
     | some (.jarr ts _) => ∃ ts2 tp, readProp l3 tasksKey = some (.jarr ts2 tp) ∧
         tasksRepairedFrom ts ts2
     | _ => readProp l3 tasksKey = some (.jarr .nil .nil)) ∧
    objTaskB l3 = objTaskB l1 := by
  simp only [repairListTasks] at h
  split at h
  next heqg => simp at h
  next tv heqg =>
    have hread1 : readProp l1 tasksKey = tv := by simp [readProp, heqg]
    cases tv with
    | none =>
      rw [if_neg (by simp)] at h
      split at h
      next heqs => simp at h
      next l2 heqs =>
        have hg2 := getPropJS_setPropJS_eq heqs
        simp only [hg2, repairTasks, setPropJS_self hg2] at h
        simp only [Prod.mk.injEq, Option.some.injEq] at h
        obtain ⟨h1, h2⟩ := h
        subst h1
        refine ⟨fun k2 hk2 => readProp_setPropJS_ne heqs hk2,
          ⟨.nil, .nil, readProp_setPropJS_eq heqs, rfl⟩, ?_, setPropJS_kind heqs⟩
        rw [hread1]
        exact readProp_setPropJS_eq heqs
    | some t =>
      cases t with
      | jarr ts tp =>
        rw [if_pos (by simp [isArrayJ])] at h
        simp only [heqg] at h
        split at h
        next ts2 c4 heqt =>
          split at h
          next l3' heqs =>
            simp only [Prod.mk.injEq, Option.some.injEq] at h
            obtain ⟨h1, h2⟩ := h
            subst h1
            have ft := repairTasks_facts heqt
            refine ⟨fun k2 hk2 => readProp_setPropJS_ne heqs hk2,
              ⟨ts2, tp, readProp_setPropJS_eq heqs, ft.1⟩, ?_, setPropJS_kind heqs⟩
            rw [hread1]
            exact ⟨ts2, tp, readProp_setPropJS_eq heqs, ft.2⟩
          next heqs => simp at h
        next c4 heqt => simp at h
      | jnull =>
        rw [if_neg (by simp [isArrayJ])] at h
        split at h
        next heqs => simp at h
        next l2 heqs =>
          have hg2 := getPropJS_setPropJS_eq heqs
          simp only [hg2, repairTasks, setPropJS_self hg2] at h
          simp only [Prod.mk.injEq, Option.some.injEq] at h
          obtain ⟨h1, h2⟩ := h
          subst h1
          refine ⟨fun k2 hk2 => readProp_setPropJS_ne heqs hk2,
            ⟨.nil, .nil, readProp_setPropJS_eq heqs, rfl⟩, ?_, setPropJS_kind heqs⟩
          rw [hread1]
          exact readProp_setPropJS_eq heqs
      | jbool b =>
        rw [if_neg (by simp [isArrayJ])] at h
        split at h
        next heqs => simp at h
        next l2 heqs =>
          have hg2 := getPropJS_setPropJS_eq heqs
          simp only [hg2, repairTasks, setPropJS_self hg2] at h
          simp only [Prod.mk.injEq, Option.some.injEq] at h
          obtain ⟨h1, h2⟩ := h
          subst h1
          refine ⟨fun k2 hk2 => readProp_setPropJS_ne heqs hk2,
            ⟨.nil, .nil, readProp_setPropJS_eq heqs, rfl⟩, ?_, setPropJS_kind heqs⟩
          rw [hread1]
          exact readProp_setPropJS_eq heqs
      | jnum n =>
        rw [if_neg (by simp [isArrayJ])] at h
        split at h
        next heqs => simp at h
        next l2 heqs =>
          have hg2 := getPropJS_setPropJS_eq heqs
          simp only [hg2, repairTasks, setPropJS_self hg2] at h
          simp only [Prod.mk.injEq, Option.some.injEq] at h
          obtain ⟨h1, h2⟩ := h
          subst h1
          refine ⟨fun k2 hk2 => readProp_setPropJS_ne heqs hk2,
            ⟨.nil, .nil, readProp_setPropJS_eq heqs, rfl⟩, ?_, setPropJS_kind heqs⟩
          rw [hread1]
          exact readProp_setPropJS_eq heqs
      | jstr s2 =>
        rw [if_neg (by simp [isArrayJ])] at h
        split at h
        next heqs => simp at h
        next l2 heqs =>
          have hg2 := getPropJS_setPropJS_eq heqs
          simp only [hg2, repairTasks, setPropJS_self hg2] at h
          simp only [Prod.mk.injEq, Option.some.injEq] at h
          obtain ⟨h1, h2⟩ := h
          subst h1
          refine ⟨fun k2 hk2 => readProp_setPropJS_ne heqs hk2,
            ⟨.nil, .nil, readProp_setPropJS_eq heqs, rfl⟩, ?_, setPropJS_kind heqs⟩
          rw [hread1]
          exact readProp_setPropJS_eq heqs
      | jobj fs2 =>
        rw [if_neg (by simp [isArrayJ])] at h
        split at h
        next heqs => simp at h
        next l2 heqs =>
          have hg2 := getPropJS_setPropJS_eq heqs
          simp only [hg2, repairTasks, setPropJS_self hg2] at h
          simp only [Prod.mk.injEq, Option.some.injEq] at h
          obtain ⟨h1, h2⟩ := h
          subst h1
          refine ⟨fun k2 hk2 => readProp_setPropJS_ne heqs hk2,
            ⟨.nil, .nil, readProp_setPropJS_eq heqs, rfl⟩, ?_, setPropJS_kind heqs⟩
          rw [hread1]
          exact readProp_setPropJS_eq heqs

/-- A list whose `tasks` is already an array of truthy-id tasks is returned
unchanged, with the counter untouched. -/
theorem repairListTasks_id {l : Json} {ts : JsonList} {tp : JsonFields}
    (hget : getPropJS l tasksKey = some (some (.jarr ts tp)))
    (hts : allJL goodTaskB ts = true) (c : Nat) :
    repairListTasks l c = (some l, c) := by
  simp [repairListTasks, hget, isArrayJ, repairTasks_id hts c, setPropJS_self hget]

/-- The `tasks` repair keeps a pure plain-object list pure when its output
passes the plain-object test. -/
theorem repairListTasks_pure {l1 : Json} {c1 : Nat} {l3 : Json} {c3 : Nat}
    (hp : jpureV l1 = true) (h : repairListTasks l1 c1 = (some l3, c3))
    (hobj : objListB l3 = true) : jpureV l3 = true := by
  have hk : objTaskB l1 = true := by
    rw [← (repairListTasks_facts h).2.2.2]
    exact objListB_is_obj hobj
  cases l1 with
  | jnull => simp [objTaskB] at hk
  | jbool b => simp [objTaskB] at hk
  | jnum n => simp [objTaskB] at hk
  | jstr s2 => simp [objTaskB] at hk
  | jarr es props => simp [objTaskB] at hk
  | jobj fs =>
    simp only [repairListTasks, getPropJS] at h
    cases hlook : lookupField tasksKey fs with
    | none =>
      rw [hlook] at h
      rw [if_neg (by simp)] at h
      simp only [setPropJS, getPropJS, lookupField_setField_eq, repairTasks] at h
      simp only [Prod.mk.injEq, Option.some.injEq] at h
      obtain ⟨h1, h2⟩ := h
      subst h1
      show jpureF (setField tasksKey (.jarr .nil .nil)
        (setField tasksKey (.jarr .nil .nil) fs)) = true
      exact jpureF_setField (by rfl) (jpureF_setField (by rfl) hp)
    | some t =>
      rw [hlook] at h
      cases t with
      | jarr ts tp =>
        rw [if_pos (by simp [isArrayJ])] at h
        simp only [getPropJS, hlook, setPropJS] at h
        split at h
        next ts2 c4 heqt =>
          simp only [Prod.mk.injEq, Option.some.injEq] at h
          obtain ⟨h1, h2⟩ := h
          subst h1
          have hv : jpureV (.jarr ts tp) = true := jpureF_lookup hp hlook
          simp only [jpureV, Bool.and_eq_true] at hv
          have hread3 : readProp (Json.jobj (setField tasksKey (.jarr ts2 tp) fs))
              tasksKey = some (.jarr ts2 tp) := by
            simp [readProp, getPropJS, lookupField_setField_eq]
          simp only [objListB, hread3] at hobj
          cases tp with
          | cons a b t2 => exact absurd hv.1 (by simp)
          | nil =>
            show jpureF (setField tasksKey (.jarr ts2 .nil) fs) = true
            refine jpureF_setField ?_ hp
            simp only [jpureV, Bool.and_eq_true]
            exact ⟨trivial, repairTasks_pure hv.2 heqt hobj⟩
        next c4 heqt => simp at h
      | jnull =>
        rw [if_neg (by simp [isArrayJ])] at h
        simp only [setPropJS, getPropJS, lookupField_setField_eq, repairTasks] at h
        simp only [Prod.mk.injEq, Option.some.injEq] at h
        obtain ⟨h1, h2⟩ := h
        subst h1
        show jpureF (setField tasksKey (.jarr .nil .nil)
          (setField tasksKey (.jarr .nil .nil) fs)) = true
        exact jpureF_setField (by rfl) (jpureF_setField (by rfl) hp)
      | jbool b =>
        rw [if_neg (by simp [isArrayJ])] at h
        simp only [setPropJS, getPropJS, lookupField_setField_eq, repairTasks] at h
        simp only [Prod.mk.injEq, Option.some.injEq] at h
        obtain ⟨h1, h2⟩ := h
        subst h1
        show jpureF (setField tasksKey (.jarr .nil .nil)
          (setField tasksKey (.jarr .nil .nil) fs)) = true
        exact jpureF_setField (by rfl) (jpureF_setField (by rfl) hp)
      | jnum n =>
        rw [if_neg (by simp [isArrayJ])] at h
        simp only [setPropJS, getPropJS, lookupField_setField_eq, repairTasks] at h
        simp only [Prod.mk.injEq, Option.some.injEq] at h
        obtain ⟨h1, h2⟩ := h
        subst h1
        show jpureF (setField tasksKey (.jarr .nil .nil)
          (setField tasksKey (.jarr .nil .nil) fs)) = true
        exact jpureF_setField (by rfl) (jpureF_setField (by rfl) hp)
      | jstr s3 =>
        rw [if_neg (by simp [isArrayJ])] at h
        simp only [setPropJS, getPropJS, lookupField_setField_eq, repairTasks] at h
        simp only [Prod.mk.injEq, Option.some.injEq] at h
        obtain ⟨h1, h2⟩ := h
        subst h1
        show jpureF (setField tasksKey (.jarr .nil .nil)
          (setField tasksKey (.jarr .nil .nil) fs)) = true
        exact jpureF_setField (by rfl) (jpureF_setField (by rfl) hp)
      | jobj fs2 =>
        rw [if_neg (by simp [isArrayJ])] at h
        simp only [setPropJS, getPropJS, lookupField_setField_eq, repairTasks] at h
        simp only [Prod.mk.injEq, Option.some.injEq] at h
        obtain ⟨h1, h2⟩ := h
        subst h1
        show jpureF (setField tasksKey (.jarr .nil .nil)
          (setField tasksKey (.jarr .nil .nil) fs)) = true
        exact jpureF_setField (by rfl) (jpureF_setField (by rfl) hp)

/-- A successful per-list repair yields a good list, pointwise related to the
input. -/
theorem repairList_facts {l : Json} {c : Nat} {l2 : Json} {c2 : Nat}
    (h : repairList l c = (some l2, c2)) :
    goodListB l2 = true ∧ listRepairedFrom l l2 := by
  simp only [repairList] at h
  split at h
  next c1 heq => simp at h
  next l1 c1 heq =>
    have f1 := repairId_facts heq
    have f2 := repairListTasks_facts h
    obtain ⟨ts2, tp2, hread2, hgood2⟩ := f2.2.1
    have hid2 : readProp l2 idKey = readProp l1 idKey := f2.1 idKey (by decide)
    constructor
    · simp only [goodListB, Bool.and_eq_true, hread2]
      exact ⟨by rw [hid2]; exact f1.1, hgood2⟩
    · constructor
      · exact ⟨fun ht => by rw [hid2]; exact f1.2.1.1 ht,
          fun hf => by rw [hid2]; exact f1.2.1.2 hf⟩
      · have hteq : readProp l1 tasksKey = readProp l tasksKey :=
          f1.2.2 tasksKey (by decide)
        have h3 := f2.2.2.1
        rw [hteq] at h3
        exact h3

/-- A good list is returned unchanged by the per-list repair, with the counter
untouched. -/
theorem repairList_id {l : Json} (hg : goodListB l = true) (c : Nat) :
    repairList l c = (some l, c) := by
  simp only [goodListB, Bool.and_eq_true] at hg
  obtain ⟨hid, hts⟩ := hg
  split at hts
  next ts tp hread =>
    have hget := getPropJS_of_readProp hread
    simp [repairList, repairId_id hid c, repairListTasks_id hget hts c]
  next hread => exact absurd hts (by simp)

/-- The per-list repair keeps a pure list pure when its output passes the
plain-object test. -/
theorem repairList_pure {l : Json} {c : Nat} {l2 : Json} {c2 : Nat}
    (hp : jpureV l = true) (h : repairList l c = (some l2, c2))
    (hobj : objListB l2 = true) : jpureV l2 = true := by
  simp only [repairList] at h
  split at h
  next c1 heq => simp at h
  next l1 c1 heq =>
    have hk1 : objTaskB l1 = true := by
      rw [← (repairListTasks_facts h).2.2.2]
      exact objListB_is_obj hobj
    exact repairListTasks_pure (repairId_pure hp heq hk1) h hobj

/-- A successful `lists` loop yields good lists, pointwise related to the
input. -/
theorem repairLists_facts :
    ∀ {ls : JsonList} {c : Nat} {ls2 : JsonList} {c2 : Nat},
      repairLists ls c = (some ls2, c2) →
      allJL goodListB ls2 = true ∧ listsRepairedFrom ls ls2
  | .nil, c, ls2, c2, h => by
    simp only [repairLists, Prod.mk.injEq, Option.some.injEq] at h
    obtain ⟨h1, h2⟩ := h
    subst h1
    exact ⟨rfl, trivial⟩
  | .cons l tl, c, ls2, c2, h => by
    simp only [repairLists] at h
    split at h
    next c3 heq => simp at h
    next l2 c3 heq =>
      split at h
      next tl2 c4 heq2 =>
        simp only [Prod.mk.injEq, Option.some.injEq] at h
        obtain ⟨h1, h2⟩ := h
        subst h1
        have f1 := repairList_facts heq
        have f2 := repairLists_facts heq2
        exact ⟨by simp [allJL, f1.1, f2.1], f1.2, f2.2⟩
      next c4 heq2 => simp at h

/-- Good lists are returned unchanged by the `lists` loop, with the counter
untouched. -/
theorem repairLists_id :
    ∀ {ls : JsonList}, allJL goodListB ls = true →
      ∀ c, repairLists ls c = (some ls, c)
  | .nil, _, c => by simp [repairLists]
  | .cons l tl, hls, c => by
    simp only [allJL, Bool.and_eq_true] at hls
    simp [repairLists, repairList_id hls.1, repairLists_id hls.2]

/-- The `lists` loop keeps pure lists pure when each output list passes the
plain-object test. -/
theorem repairLists_pure :
    ∀ {ls : JsonList} {c : Nat} {ls2 : JsonList} {c2 : Nat},
      jpureL ls = true → repairLists ls c = (some ls2, c2) →
      allJL objListB ls2 = true → jpureL ls2 = true
  | .nil, c, ls2, c2, _, h, _ => by
    simp only [repairLists, Prod.mk.injEq, Option.some.injEq] at h
    obtain ⟨h1, h2⟩ := h
    subst h1
    rfl
  | .cons l tl, c, ls2, c2, hp, h, hobj => by
    simp only [jpureL, Bool.and_eq_true] at hp
    simp only [repairLists] at h
    split at h
    next c3 heq => simp at h
    next l2 c3 heq =>
      split at h
      next tl2 c4 heq2 =>
        simp only [Prod.mk.injEq, Option.some.injEq] at h
        obtain ⟨h1, h2⟩ := h
        subst h1
        simp only [allJL, Bool.and_eq_true] at hobj
        simp only [jpureL, Bool.and_eq_true]
        exact ⟨repairList_pure hp.1 heq hobj.1, repairLists_pure hp.2 heq2 hobj.2⟩
      next c4 heq2 => simp at h

theorem docLists_inv {d : Json} {ls : JsonList} {lp : JsonFields}
    (h : docLists d = some (ls, lp)) :
    getPropJS d listsKey = some (some (.jarr ls lp)) ∧ truthy d = true := by
  simp only [docLists] at h
  split at h
  next ls2 lp2 heq =>
    simp only [Option.some.injEq, Prod.mk.injEq] at h
    obtain ⟨h1, h2⟩ := h
    subst h1
    subst h2
    refine ⟨heq, ?_⟩
    cases d with
    | jnull => simp [getPropJS] at heq
    | jbool b => simp [getPropJS] at heq
    | jnum n => simp [getPropJS] at heq
    | jstr s2 => simp [getPropJS] at heq
    | jarr es props => rfl
    | jobj fs => rfl
  next heq => exact Option.noConfusion h

theorem setPropJS_total {d : Json} {k : List Char} {v0 : Json}
    (h : getPropJS d k = some (some v0)) (val : Json) :
    ∃ d2, setPropJS d k val = some d2 := by
  cases d with
  | jnull => simp [getPropJS] at h
  | jbool b => simp [getPropJS] at h
  | jnum n => simp [getPropJS] at h
  | jstr s2 => simp [getPropJS] at h
  | jarr es props => exact ⟨_, rfl⟩
  | jobj fs => exact ⟨_, rfl⟩

/-- Re-parsing the serialization of a pure document whose lists are all good
returns the document unchanged, with the id counter untouched. -/
theorem reparse_fixed {doc : Json} {ls : JsonList} {lp : JsonFields}
    (hpure : jpureV doc = true) (hd : docLists doc = some (ls, lp))
    (hgood : allJL goodListB ls = true) (c : Nat) :
    parseTodoData c (serializeTodoData doc) = (doc, c) := by
  obtain ⟨hget, htruthy⟩ := docLists_inv hd
  have hparse : jsonParseJS (serializeTodoData doc) = some doc :=
    jsonParseJS_pretty doc hpure
  simp [parseTodoData, hparse, htruthy, hget, repairLists_id hgood c,
    setPropJS_self hget]

/-- Inversion of `parseTodoData`: the result is the empty document or the
parsed value with its repaired `lists` written back. -/
theorem parseTodoData_cases {c : Nat} {content : List Char} {doc : Json} {c2 : Nat}
    (h : parseTodoData c content = (doc, c2)) :
    doc = emptyTodoDoc ∨
      ∃ data ls lp ls2, jsonParseJS content = some data ∧
        getPropJS data listsKey = some (some (.jarr ls lp)) ∧
        repairLists ls c = (some ls2, c2) ∧
        setPropJS data listsKey (.jarr ls2 lp) = some doc := by
  simp only [parseTodoData] at h
  split at h
  next heqj =>
    simp only [Prod.mk.injEq] at h
    exact Or.inl h.1.symm
  next data heqj =>
    split at h
    · split at h
      next ls lp heqg =>
        split at h
        next ls2 c4 heqr =>
          split at h
          next doc2 heqs =>
            simp only [Prod.mk.injEq] at h
            obtain ⟨h1, h2⟩ := h
            subst h1
            subst h2
            exact Or.inr ⟨data, ls, lp, ls2, heqj, heqg, heqr, heqs⟩
          next heqs =>
            simp only [Prod.mk.injEq] at h
            exact Or.inl h.1.symm
        next c4 heqr =>
          simp only [Prod.mk.injEq] at h
          exact Or.inl h.1.symm
      next heqg =>
        simp only [Prod.mk.injEq] at h
        exact Or.inl h.1.symm
    · simp only [Prod.mk.injEq] at h
      exact Or.inl h.1.symm

/-- Any document produced by `parseTodoData` whose lists are all plain objects
(with plain-object tasks) is a fixed point of serialize-then-parse, with the
id counter untouched. -/
theorem parseTodoData_reparse {c : Nat} {content : List Char} {doc : Json} {c2 : Nat}
    (h : parseTodoData c content = (doc, c2)) (hobj : objListsDoc doc = true)
    (c3 : Nat) : parseTodoData c3 (serializeTodoData doc) = (doc, c3) := by
  rcases parseTodoData_cases h with hE | ⟨data, ls, lp, ls2, hjson, hget, hrep, hset⟩
  · subst hE
    exact @reparse_fixed emptyTodoDoc .nil .nil (by decide) (by decide) (by decide) c3
  · have hdata_pure : jpureV data = true := jsonParseJS_pure hjson
    cases data with
    | jnull => simp [getPropJS] at hget
    | jbool b => simp [getPropJS] at hget
    | jnum n => simp [getPropJS] at hget
    | jstr s2 => simp [getPropJS] at hget
    | jarr es props =>
      have hnil : props = JsonFields.nil := by
        cases props with
        | nil => rfl
        | cons a b t => exact absurd hdata_pure (by simp [jpureV])
      subst hnil
      simp [getPropJS, lookupField] at hget
    | jobj fs =>
      simp only [getPropJS, Option.some.injEq] at hget
      have hlv : jpureV (.jarr ls lp) = true := jpureF_lookup hdata_pure hget
      simp only [jpureV, Bool.and_eq_true] at hlv
      cases lp with
      | cons a b t => exact absurd hlv.1 (by simp)
      | nil =>
        simp only [setPropJS, Option.some.injEq] at hset
        subst hset
        have hdl : docLists (Json.jobj (setField listsKey (.jarr ls2 .nil) fs)) =
            some (ls2, .nil) := by
          simp [docLists, getPropJS, lookupField_setField_eq]
        have hobj2 : allJL objListB ls2 = true := by
          simp only [objListsDoc, hdl] at hobj
          exact hobj
        have hpure2 : jpureL ls2 = true := repairLists_pure hlv.2 hrep hobj2
        have hpured : jpureV (Json.jobj (setField listsKey (.jarr ls2 .nil) fs)) = true := by
          show jpureF (setField listsKey (.jarr ls2 .nil) fs) = true
          refine jpureF_setField ?_ hdata_pure
          simp only [jpureV, Bool.and_eq_true]
          exact ⟨trivial, hpure2⟩
        exact reparse_fixed hpured hdl ((repairLists_facts hrep).1) c3

/-- C6: counterexamples to the literal claim.  First, `Parse` does not repair
"every list missing an identifier": a `null` list element makes the repair
loop throw (reading `null.id`), so the whole parse falls back to the empty
document even though the parsed value passed the array-`lists` test.  Second,
idempotence after one pass fails: for an array list element the generated
identifiers live in array expando properties that `JSON.stringify` drops, so
serialize-then-parse regenerates different identifiers (the resulting
document differs). -/
theorem C6_parse_repair_counterexample :
    (jsonParseJS "\x7b\"lists\":[null]\x7d".data =
        some (.jobj (.cons listsKey (.jarr (.cons .jnull .nil) .nil) .nil)) ∧
      hasArrayLists (.jobj (.cons listsKey (.jarr (.cons .jnull .nil) .nil) .nil)) =
        true ∧
      parseTodoData 5 "\x7b\"lists\":[null]\x7d".data = (emptyTodoDoc, 5)) ∧
    (parseTodoData 0 "\x7b\"lists\":[[]]\x7d".data =
        (.jobj (.cons listsKey (.jarr (.cons (.jarr .nil
        (.cons idKey (.jstr ['t', 'd', '-', '0']) (.cons tasksKey (.jarr .nil .nil) .nil)))
        .nil) .nil) .nil), 1) ∧
      parseTodoData 1 (serializeTodoData (.jobj (.cons listsKey (.jarr (.cons (.jarr .nil
        (.cons idKey (.jstr ['t', 'd', '-', '0']) (.cons tasksKey (.jarr .nil .nil) .nil)))
        .nil) .nil) .nil))) =
        (.jobj (.cons listsKey (.jarr (.cons (.jarr .nil
        (.cons idKey (.jstr ['t', 'd', '-', '1']) (.cons tasksKey (.jarr .nil .nil) .nil)))
        .nil) .nil) .nil), 2) ∧
      (.jobj (.cons listsKey (.jarr (.cons (.jarr .nil
        (.cons idKey (.jstr ['t', 'd', '-', '1']) (.cons tasksKey (.jarr .nil .nil) .nil)))
        .nil) .nil) .nil) : Json) ≠
        .jobj (.cons listsKey (.jarr (.cons (.jarr .nil
        (.cons idKey (.jstr ['t', 'd', '-', '0']) (.cons tasksKey (.jarr .nil .nil) .nil)))
        .nil) .nil) .nil)) := by
  decide

/-- C6 (amended): `Parse` returns the empty-list document on JSON parse
failure and whenever the parsed value fails the `data && Array.isArray(data.lists)`
test; when the test passes, either the repair loop throws (on a list or task
whose property access/assignment fails, e.g. `null` or a primitive) and the
empty-list document is returned with the counter as advanced so far, or the
loop succeeds and the result is the parsed value with its repaired lists
written back: every kept list relates pointwise to its input (truthy ids kept,
falsy/missing ids replaced by generated `td-…` strings, non-array `tasks`
replaced by `[]`, task ids likewise), and all resulting lists have truthy ids.
Idempotence holds for every produced document whose lists are plain objects
with plain-object tasks: serialize-then-parse returns the document unchanged
(identifiers preserved) with the id counter untouched. -/
theorem C6_parse_repair_amended (c : Nat) (content : List Char) :
    (jsonParseJS content = none → parseTodoData c content = (emptyTodoDoc, c)) ∧
    (∀ data, jsonParseJS content = some data → hasArrayLists data = false →
      parseTodoData c content = (emptyTodoDoc, c)) ∧
    (∀ data ls lp, jsonParseJS content = some data → docLists data = some (ls, lp) →
      (∀ c2, repairLists ls c = (none, c2) →
        parseTodoData c content = (emptyTodoDoc, c2)) ∧
      (∀ ls2 c2, repairLists ls c = (some ls2, c2) →
        listsRepairedFrom ls ls2 ∧ allJL goodListB ls2 = true ∧
        ∃ doc, setPropJS data listsKey (.jarr ls2 lp) = some doc ∧
          parseTodoData c content = (doc, c2))) ∧
    (∀ doc c2, parseTodoData c content = (doc, c2) → objListsDoc doc = true →
      ∀ c3, parseTodoData c3 (serializeTodoData doc) = (doc, c3)) := by
  refine ⟨?_, ?_, ?_, ?_⟩
  · intro h
    simp [parseTodoData, h]
  · intro data hdata hno
    simp only [parseTodoData, hdata]
    by_cases ht : truthy data = true
    · rw [if_pos ht]
      cases hget : getPropJS data listsKey with
      | none => rfl
      | some o =>
        cases o with
        | none => rfl
        | some t =>
          cases t with
          | jarr es props =>
            exfalso
            have hread : readProp data listsKey = some (.jarr es props) := by
              simp [readProp, hget]
            simp [hasArrayLists, ht, hread, isArrayJ] at hno
          | jnull => rfl
          | jbool b => rfl
          | jnum n => rfl
          | jstr s2 => rfl
          | jobj fs => rfl
    · rw [if_neg ht]
  · intro data ls lp hdata hd
    obtain ⟨hget, ht⟩ := docLists_inv hd
    constructor
    · intro c2 hrep
      simp [parseTodoData, hdata, ht, hget, hrep]
    · intro ls2 c2 hrep
      have f := repairLists_facts hrep
      obtain ⟨doc, hset⟩ := setPropJS_total hget (.jarr ls2 lp)
      exact ⟨f.2, f.1, doc, hset,
        by simp [parseTodoData, hdata, ht, hget, hrep, hset]⟩
  · intro doc c2 h hobj c3
    exact parseTodoData_reparse h hobj c3

/-- C6 witness: on the claim's own example
`\x7b"lists":[\x7b"title":"X","tasks":[\x7b"text":"t"\x7d]\x7d]\x7d`, parsing
with counter 7 assigns generated ids `td-7` / `td-8`, and re-parsing the
serialization (with a fresh counter) preserves the document and its
identifiers exactly. -/
theorem C6_parse_repair_amended_witness :
    parseTodoData 7
        "\x7b\"lists\":[\x7b\"title\":\"X\",\"tasks\":[\x7b\"text\":\"t\"\x7d]\x7d]\x7d".data =
      (.jobj (.cons listsKey (.jarr (.cons (.jobj (.cons ['t', 'i', 't', 'l', 'e']
        (.jstr ['X']) (.cons tasksKey (.jarr (.cons (.jobj (.cons ['t', 'e', 'x', 't']
        (.jstr ['t']) (.cons idKey (.jstr ['t', 'd', '-', '8']) .nil))) .nil) .nil)
        (.cons idKey (.jstr ['t', 'd', '-', '7']) .nil)))) .nil) .nil) .nil), 9) ∧
    parseTodoData 42 (serializeTodoData (.jobj (.cons listsKey (.jarr (.cons (.jobj (.cons ['t', 'i', 't', 'l', 'e']
        (.jstr ['X']) (.cons tasksKey (.jarr (.cons (.jobj (.cons ['t', 'e', 'x', 't']
        (.jstr ['t']) (.cons idKey (.jstr ['t', 'd', '-', '8']) .nil))) .nil) .nil)
        (.cons idKey (.jstr ['t', 'd', '-', '7']) .nil)))) .nil) .nil) .nil))) =
      (.jobj (.cons listsKey (.jarr (.cons (.jobj (.cons ['t', 'i', 't', 'l', 'e']
        (.jstr ['X']) (.cons tasksKey (.jarr (.cons (.jobj (.cons ['t', 'e', 'x', 't']
        (.jstr ['t']) (.cons idKey (.jstr ['t', 'd', '-', '8']) .nil))) .nil) .nil)
        (.cons idKey (.jstr ['t', 'd', '-', '7']) .nil)))) .nil) .nil) .nil), 42) := by
  have h1 : parseTodoData 7
      "\x7b\"lists\":[\x7b\"title\":\"X\",\"tasks\":[\x7b\"text\":\"t\"\x7d]\x7d]\x7d".data =
      (.jobj (.cons listsKey (.jarr (.cons (.jobj (.cons ['t', 'i', 't', 'l', 'e']
        (.jstr ['X']) (.cons tasksKey (.jarr (.cons (.jobj (.cons ['t', 'e', 'x', 't']
        (.jstr ['t']) (.cons idKey (.jstr ['t', 'd', '-', '8']) .nil))) .nil) .nil)
        (.cons idKey (.jstr ['t', 'd', '-', '7']) .nil)))) .nil) .nil) .nil), 9) := by decide
  exact ⟨h1, (C6_parse_repair_amended 7
    "\x7b\"lists\":[\x7b\"title\":\"X\",\"tasks\":[\x7b\"text\":\"t\"\x7d]\x7d]\x7d".data).2.2.2
    _ 9 h1 (by decide) 42⟩

end MdEditor
